import Mathlib

/-!
Verification of the wf-ll code-table generator (gen_ll).

Go strings are modelled as rune lists (`List Char`); all strings handled by
the generator are valid UTF-8, and byte-wise string comparison on valid UTF-8
agrees with lexicographic comparison of the codepoint sequences, so `strLt`
below is a faithful model of Go's `<` on strings.  Go maps with zero-value
defaults (`mappings`, `freqSet`, quota tables) are modelled as total functions
returning `[]` / `0` for absent keys.  `sort.Slice` is modelled by insertion
sort on the same comparator: the Go API only guarantees the comparator-order
of the result, and every property proved below depends only on that order
(or on the multiset of elements).
-/

namespace LL

/-- Strings of the Go program, as rune lists. -/
abbrev Str := List Char

/-- Lexicographic strict comparison of rune lists, modelling Go's `<` on
strings (byte order on valid UTF-8 agrees with codepoint order). -/
def strLt : Str → Str → Bool
  | [], [] => false
  | [], _ :: _ => true
  | _ :: _, [] => false
  | a :: as, b :: bs => if a < b then true else if b < a then false else strLt as bs

theorem strLt_irrefl (s : Str) : strLt s s = false := by
  induction s with
  | nil => rfl
  | cons a as ih => simp [strLt, ih]

theorem strLt_asymm : ∀ {a b : Str}, strLt a b = true → strLt b a = false
  | [], [], h => by simp [strLt] at h
  | [], _ :: _, _ => rfl
  | _ :: _, [], h => by simp [strLt] at h
  | a :: as, b :: bs, h => by
    simp only [strLt] at h ⊢
    rcases lt_trichotomy a b with hab | hab | hab
    · simp [hab, not_lt_of_lt hab]
    · subst hab
      simp only [lt_irrefl, if_false] at h ⊢
      exact strLt_asymm h
    · simp [hab, not_lt_of_lt hab] at h

theorem strLt_trans : ∀ {a b c : Str},
    strLt a b = true → strLt b c = true → strLt a c = true
  | [], [], _, h, _ => by simp [strLt] at h
  | [], _ :: _, [], _, h => by simp [strLt] at h
  | [], _ :: _, _ :: _, _, _ => rfl
  | _ :: _, [], _, h, _ => by simp [strLt] at h
  | _ :: _, _ :: _, [], _, h => by simp [strLt] at h
  | a :: as, b :: bs, c :: cs, h1, h2 => by
    simp only [strLt] at h1 h2 ⊢
    rcases lt_trichotomy a b with hab | hab | hab
    · rcases lt_trichotomy b c with hbc | hbc | hbc
      · simp [lt_trans hab hbc]
      · subst hbc; simp [hab]
      · simp [hbc, not_lt_of_lt hbc] at h2
    · subst hab
      simp only [lt_irrefl, if_false] at h1
      rcases lt_trichotomy a c with hac | hac | hac
      · simp [hac]
      · subst hac
        simp only [lt_irrefl, if_false] at h2 ⊢
        exact strLt_trans h1 h2
      · simp [hac, not_lt_of_lt hac] at h2
    · simp [hab, not_lt_of_lt hab] at h1

theorem strLt_connex : ∀ {a b : Str},
    strLt a b = false → strLt b a = false → a = b
  | [], [], _, _ => rfl
  | [], _ :: _, h, _ => by simp [strLt] at h
  | _ :: _, [], _, h => by simp [strLt] at h
  | a :: as, b :: bs, h1, h2 => by
    simp only [strLt] at h1 h2
    rcases lt_trichotomy a b with hab | hab | hab
    · simp [hab] at h1
    · subst hab
      simp only [lt_irrefl, if_false] at h1 h2
      exact congrArg _ (strLt_connex h1 h2)
    · simp [hab] at h2

/-- Descending comparison on `Int`, modelling Go's `x > y` used for
frequency / weight ordering. -/
def intGt (x y : Int) : Bool := decide (y < x)

theorem intGt_asymm {x y : Int} (h : intGt x y = true) : intGt y x = false := by
  simp only [intGt, decide_eq_true_eq, decide_eq_false_iff_not] at h ⊢; omega

theorem intGt_trans {x y z : Int} (h1 : intGt x y = true) (h2 : intGt y z = true) :
    intGt x z = true := by
  simp only [intGt, decide_eq_true_eq] at h1 h2 ⊢; omega

theorem intGt_connex {x y : Int} (h1 : intGt x y = false) (h2 : intGt y x = false) :
    x = y := by
  simp only [intGt, decide_eq_false_iff_not] at h1 h2; omega

/-- Lexicographic combination of two boolean strict comparators, the shape of
every `sort.Slice` comparator in the generator (`if key1 differs, order by
key1, else compare the remaining keys`). -/
def pairLt {β γ : Type} [DecidableEq β] (ltb : β → β → Bool) (ltc : γ → γ → Bool) :
    β × γ → β × γ → Bool :=
  fun x y => if x.1 ≠ y.1 then ltb x.1 y.1 else ltc x.2 y.2

theorem pairLt_asymm {β γ : Type} [DecidableEq β]
    {ltb : β → β → Bool} {ltc : γ → γ → Bool}
    (hb : ∀ x y, ltb x y = true → ltb y x = false)
    (hc : ∀ x y, ltc x y = true → ltc y x = false)
    {x y : β × γ} (h : pairLt ltb ltc x y = true) : pairLt ltb ltc y x = false := by
  simp only [pairLt] at h ⊢
  by_cases he : x.1 = y.1
  · rw [if_neg (not_not_intro he)] at h
    rw [if_neg (not_not_intro he.symm)]
    exact hc _ _ h
  · rw [if_pos he] at h
    rw [if_pos (fun hh : y.1 = x.1 => he hh.symm)]
    exact hb _ _ h

theorem pairLt_trans {β γ : Type} [DecidableEq β]
    {ltb : β → β → Bool} {ltc : γ → γ → Bool}
    (hbA : ∀ x y, ltb x y = true → ltb y x = false)
    (hbT : ∀ x y z, ltb x y = true → ltb y z = true → ltb x z = true)
    (hcT : ∀ x y z, ltc x y = true → ltc y z = true → ltc x z = true)
    {x y z : β × γ} (h1 : pairLt ltb ltc x y = true) (h2 : pairLt ltb ltc y z = true) :
    pairLt ltb ltc x z = true := by
  simp only [pairLt] at h1 h2 ⊢
  by_cases hxy : x.1 = y.1 <;> by_cases hyz : y.1 = z.1
  · rw [if_neg (not_not_intro hxy)] at h1
    rw [if_neg (not_not_intro hyz)] at h2
    rw [if_neg (not_not_intro (hxy.trans hyz))]
    exact hcT _ _ _ h1 h2
  · rw [if_neg (not_not_intro hxy)] at h1
    rw [if_pos hyz] at h2
    have hxz : ¬ x.1 = z.1 := fun he => hyz (hxy ▸ he)
    rw [if_pos hxz, hxy]
    exact h2
  · rw [if_pos hxy] at h1
    rw [if_neg (not_not_intro hyz)] at h2
    have hxz : ¬ x.1 = z.1 := fun he => hxy (he.trans hyz.symm)
    rw [if_pos hxz, ← hyz]
    exact h1
  · rw [if_pos hxy] at h1
    rw [if_pos hyz] at h2
    have hbxz := hbT _ _ _ h1 h2
    have hxz : ¬ x.1 = z.1 := by
      intro he
      rw [he] at h1
      have := hbA _ _ h2
      rw [h1] at this
      cases this
    rw [if_pos hxz]
    exact hbxz

theorem pairLt_connex {β γ : Type} [DecidableEq β]
    {ltb : β → β → Bool} {ltc : γ → γ → Bool}
    (hb : ∀ x y, ltb x y = false → ltb y x = false → x = y)
    (hc : ∀ x y, ltc x y = false → ltc y x = false → x = y)
    {x y : β × γ} (h1 : pairLt ltb ltc x y = false) (h2 : pairLt ltb ltc y x = false) :
    x = y := by
  simp only [pairLt] at h1 h2
  by_cases he : x.1 = y.1
  · rw [if_neg (not_not_intro he)] at h1
    rw [if_neg (not_not_intro he.symm)] at h2
    exact Prod.ext he (hc _ _ h1 h2)
  · rw [if_pos he] at h1
    rw [if_pos (fun hh : y.1 = x.1 => he hh.symm)] at h2
    exact absurd (hb _ _ h1 h2) he

/-- Negation of a transitive, connex boolean comparator is transitive: the
precise property that sortedness with respect to a `sort.Slice` comparator
needs.  Applied at the level of sort keys, where connexity holds. -/
theorem notLt_trans {α : Type} {lt : α → α → Bool}
    (hT : ∀ x y z, lt x y = true → lt y z = true → lt x z = true)
    (hC : ∀ x y, lt x y = false → lt y x = false → x = y)
    {x y z : α} (h1 : lt x y = false) (h2 : lt y z = false) : lt x z = false := by
  cases hyx : lt y x
  · have hexy : x = y := hC _ _ h1 hyx
    rw [hexy]
    exact h2
  · cases hxz : lt x z
    · rfl
    · exfalso
      have := hT _ _ _ hyx hxz
      rw [h2] at this
      cases this

/-- An asymmetric comparator never holds in both directions, so its negation
is total. -/
theorem notLt_total {α : Type} {lt : α → α → Bool}
    (hA : ∀ x y, lt x y = true → lt y x = false)
    (x y : α) : lt x y = false ∨ lt y x = false := by
  cases h : lt x y
  · exact Or.inl rfl
  · exact Or.inr (hA _ _ h)

/-! ### Data model (`gen_ll/types`) -/

/-- Decomposition of one character into ordered root components
(`types.Division`). -/
structure Division where
  char : Str
  divs : List Str
  pin : Str
  set : Str
  unicode : Str
deriving DecidableEq

/-- Character metadata carrying the derived codes (`types.CharMeta`).
`division` is the Go pointer field, `none` for records built without one. -/
structure CharMeta where
  char : Str
  full : Str
  code : Str
  freq : Int
  mdiv : Bool
  simp : Bool
  division : Option Division
deriving DecidableEq

/-- Input word entry (`types.WordEntry`). -/
structure WordEntry where
  word : Str
  weight : Str
deriving DecidableEq

/-- Derived word code (`types.WordCode`). -/
structure WordCode where
  word : Str
  code : Str
  weight : Str
deriving DecidableEq

/-- Word simple-code entry, real word or placeholder
(`types.WordSimpleCode`). -/
structure WordSimpleCode where
  word : Str
  code : Str
  weight : Str
deriving DecidableEq

/-! ### Full-code builder (`calcFullCodeByDiv`, `BuildFullCodeMetaList`) -/

/-- Lowercasing of a rune string: Go's `strings.ToLower` on the ASCII range
exercised by component codes (`Char.toLower` is exactly ASCII lowercasing). -/
def toLowerStr (s : Str) : Str := s.map Char.toLower

theorem toLower_in_range (m : Nat) (h1 : 97 ≤ m) (h2 : m ≤ 122) :
    Char.toLower (Char.ofNat m) = Char.ofNat m := by
  interval_cases m <;> decide

/-- Lowercasing is idempotent, so lower-cased output contains only
"lowercase" characters in the sense of being fixed by `toLower`. -/
theorem toLower_toLower (c : Char) : Char.toLower (Char.toLower c) = Char.toLower c := by
  by_cases h : 65 ≤ c.toNat ∧ c.toNat ≤ 90
  · have h1 : Char.toLower c = Char.ofNat (c.toNat + 32) := by
      rw [Char.toLower]
      exact if_pos h
    rw [h1]
    exact toLower_in_range _ (by omega) (by omega)
  · have h1 : Char.toLower c = c := by
      rw [Char.toLower]
      exact if_neg h
    rw [h1, h1]

/-- First symbol of a component code (部件大码), Go `compCode[:1]`. -/
def compBig (c : Str) : Str := c.take 1

/-- Middle symbol of a component code (部件中码): the second symbol when the
code has at least two, else the first repeated. -/
def compMid (c : Str) : Str := if 2 ≤ c.length then (c.drop 1).take 1 else c.take 1

/-- Small symbol of a component code (部件小码): third symbol when present,
else the second, else the first. -/
def compSmall (c : Str) : Str :=
  if 3 ≤ c.length then (c.drop 2).take 1
  else if c.length = 2 then (c.drop 1).take 1
  else c.take 1

/-- Annotated full division string: the raw component codes joined by `_`.
Go appends the separator whenever the component index is positive, even when
earlier components were skipped for having empty codes. -/
def buildFullAnnot (div : List Str) (mappings : Str → Str) : Str :=
  (div.enum).foldl
    (fun full ic =>
      let compCode := mappings ic.2
      if compCode.length = 0 then full
      else full ++ (if 0 < ic.1 then ['_'] else []) ++ compCode)
    []

/-- Common tail of `calcFullCodeByDiv`: truncate to four symbols, then
lowercase. -/
def finishCode (full code : Str) : Str × Str :=
  (full, toLowerStr (if 4 < code.length then code.take 4 else code))

/-- Model of `calcFullCodeByDiv` (identical in both revisions of the
builder).  The empty-division case is unreachable in Go, which would panic
indexing `div[0]`; division tables never contain empty component lists. -/
def calcFullCodeByDiv (div : List Str) (mappings : Str → Str) : Str × Str :=
  let full := buildFullAnnot div mappings
  match div with
  | [] => ([], [])
  | [d0] =>
    let compCode := mappings d0
    if compCode.length = 0 then ([], [])
    else
      finishCode full
        (compBig compCode ++ compMid compCode ++ compMid compCode ++ compSmall compCode)
  | [d0, d1] =>
    let firstCompCode := mappings d0
    let secondCompCode := mappings d1
    if firstCompCode.length = 0 ∨ secondCompCode.length = 0 then ([], [])
    else
      finishCode full
        (compBig firstCompCode ++ compBig secondCompCode ++
          compMid firstCompCode ++ compSmall secondCompCode)
  | d0 :: d1 :: d2 :: rest =>
    let firstCompCode := mappings d0
    let secondCompCode := mappings d1
    let lastCompCode := mappings ((d2 :: rest).getLastD d2)
    if firstCompCode.length = 0 ∨ secondCompCode.length = 0 ∨ lastCompCode.length = 0 then
      ([], [])
    else
      finishCode full
        (compBig firstCompCode ++ compBig secondCompCode ++
          compBig lastCompCode ++ compSmall lastCompCode)

/-- Comparator of `sortCharMetaByCode` (builder.go revision): code ascending,
then frequency descending, then character ascending. -/
def cmLess (a b : CharMeta) : Bool :=
  if a.code ≠ b.code then strLt a.code b.code
  else if a.freq ≠ b.freq then intGt a.freq b.freq
  else strLt a.char b.char

/-- Sort key realised by `cmLess`. -/
def cmKey (a : CharMeta) : Str × Int × Str := (a.code, a.freq, a.char)

/-- Key comparator for `cmLess`. -/
def cmKeyLt : Str × Int × Str → Str × Int × Str → Bool :=
  pairLt strLt (pairLt intGt strLt)

theorem cmLess_eq_key (a b : CharMeta) : cmLess a b = cmKeyLt (cmKey a) (cmKey b) := rfl

theorem cmKeyLt_asymm {x y} (h : cmKeyLt x y = true) : cmKeyLt y x = false := by
  unfold cmKeyLt at h ⊢
  refine pairLt_asymm ?_ ?_ h
  · exact fun _ _ h => strLt_asymm h
  · intro u v h
    refine pairLt_asymm ?_ ?_ h
    · exact fun _ _ h => intGt_asymm h
    · exact fun _ _ h => strLt_asymm h

theorem cmKeyLt_trans {x y z} (h1 : cmKeyLt x y = true) (h2 : cmKeyLt y z = true) :
    cmKeyLt x z = true := by
  unfold cmKeyLt at h1 h2 ⊢
  refine pairLt_trans ?_ ?_ ?_ h1 h2
  · exact fun _ _ h => strLt_asymm h
  · exact fun _ _ _ h1 h2 => strLt_trans h1 h2
  · intro u v w h1 h2
    refine pairLt_trans ?_ ?_ ?_ h1 h2
    · exact fun _ _ h => intGt_asymm h
    · exact fun _ _ _ h1 h2 => intGt_trans h1 h2
    · exact fun _ _ _ h1 h2 => strLt_trans h1 h2

theorem cmKeyLt_connex {x y} (h1 : cmKeyLt x y = false) (h2 : cmKeyLt y x = false) :
    x = y := by
  unfold cmKeyLt at h1 h2
  refine pairLt_connex ?_ ?_ h1 h2
  · exact fun _ _ h1 h2 => strLt_connex h1 h2
  · intro u v h1 h2
    refine pairLt_connex ?_ ?_ h1 h2
    · exact fun _ _ h1 h2 => intGt_connex h1 h2
    · exact fun _ _ h1 h2 => strLt_connex h1 h2

/-- Sortedness relation realised by `sort.Slice` with `cmLess`: the
comparator never holds backwards between ordered elements. -/
def cmR (a b : CharMeta) : Prop := cmLess b a = false

instance : DecidableRel cmR := fun a b => inferInstanceAs (Decidable (cmLess b a = false))

instance : IsTrans CharMeta cmR :=
  ⟨fun a b c h1 h2 => by
    have h1' : cmKeyLt (cmKey b) (cmKey a) = false := by rw [← cmLess_eq_key]; exact h1
    have h2' : cmKeyLt (cmKey c) (cmKey b) = false := by rw [← cmLess_eq_key]; exact h2
    show cmLess c a = false
    rw [cmLess_eq_key]
    exact @notLt_trans _ cmKeyLt (fun _ _ _ h1 h2 => cmKeyLt_trans h1 h2)
      (fun _ _ h1 h2 => cmKeyLt_connex h1 h2) (cmKey c) (cmKey b) (cmKey a) h2' h1'⟩

instance : IsTotal CharMeta cmR :=
  ⟨fun a b => by
    rcases @notLt_total _ cmKeyLt (fun _ _ h => cmKeyLt_asymm h) (cmKey b) (cmKey a) with h | h
    · exact Or.inl (by show cmLess b a = false; rw [cmLess_eq_key]; exact h)
    · exact Or.inr (by show cmLess a b = false; rw [cmLess_eq_key]; exact h)⟩

/-- Model of `sortCharMetaByCode`: `sort.Slice` with `cmLess`. -/
def sortCharMetaByCode (l : List CharMeta) : List CharMeta := List.insertionSort cmR l

/-- Comparator of `sortCharMetaByFreq` (part_000 revision): frequency
descending, then code ascending, then character ascending. -/
def cfLess (a b : CharMeta) : Bool :=
  if a.freq ≠ b.freq then intGt a.freq b.freq
  else if a.code ≠ b.code then strLt a.code b.code
  else strLt a.char b.char

/-- Sort key realised by `cfLess`. -/
def cfKey (a : CharMeta) : Int × Str × Str := (a.freq, a.code, a.char)

/-- Key comparator for `cfLess`. -/
def cfKeyLt : Int × Str × Str → Int × Str × Str → Bool :=
  pairLt intGt (pairLt strLt strLt)

theorem cfLess_eq_key (a b : CharMeta) : cfLess a b = cfKeyLt (cfKey a) (cfKey b) := rfl

theorem cfKeyLt_asymm {x y} (h : cfKeyLt x y = true) : cfKeyLt y x = false := by
  unfold cfKeyLt at h ⊢
  refine pairLt_asymm ?_ ?_ h
  · exact fun _ _ h => intGt_asymm h
  · intro u v h
    refine pairLt_asymm ?_ ?_ h
    · exact fun _ _ h => strLt_asymm h
    · exact fun _ _ h => strLt_asymm h

theorem cfKeyLt_trans {x y z} (h1 : cfKeyLt x y = true) (h2 : cfKeyLt y z = true) :
    cfKeyLt x z = true := by
  unfold cfKeyLt at h1 h2 ⊢
  refine pairLt_trans ?_ ?_ ?_ h1 h2
  · exact fun _ _ h => intGt_asymm h
  · exact fun _ _ _ h1 h2 => intGt_trans h1 h2
  · intro u v w h1 h2
    refine pairLt_trans ?_ ?_ ?_ h1 h2
    · exact fun _ _ h => strLt_asymm h
    · exact fun _ _ _ h1 h2 => strLt_trans h1 h2
    · exact fun _ _ _ h1 h2 => strLt_trans h1 h2

theorem cfKeyLt_connex {x y} (h1 : cfKeyLt x y = false) (h2 : cfKeyLt y x = false) :
    x = y := by
  unfold cfKeyLt at h1 h2
  refine pairLt_connex ?_ ?_ h1 h2
  · exact fun _ _ h1 h2 => intGt_connex h1 h2
  · intro u v h1 h2
    refine pairLt_connex ?_ ?_ h1 h2
    · exact fun _ _ h1 h2 => strLt_connex h1 h2
    · exact fun _ _ h1 h2 => strLt_connex h1 h2

/-- Sortedness relation realised by `sort.Slice` with `cfLess`. -/
def cfR (a b : CharMeta) : Prop := cfLess b a = false

instance : DecidableRel cfR := fun a b => inferInstanceAs (Decidable (cfLess b a = false))

instance : IsTrans CharMeta cfR :=
  ⟨fun a b c h1 h2 => by
    have h1' : cfKeyLt (cfKey b) (cfKey a) = false := by rw [← cfLess_eq_key]; exact h1
    have h2' : cfKeyLt (cfKey c) (cfKey b) = false := by rw [← cfLess_eq_key]; exact h2
    show cfLess c a = false
    rw [cfLess_eq_key]
    exact @notLt_trans _ cfKeyLt (fun _ _ _ h1 h2 => cfKeyLt_trans h1 h2)
      (fun _ _ h1 h2 => cfKeyLt_connex h1 h2) (cfKey c) (cfKey b) (cfKey a) h2' h1'⟩

instance : IsTotal CharMeta cfR :=
  ⟨fun a b => by
    rcases @notLt_total _ cfKeyLt (fun _ _ h => cfKeyLt_asymm h) (cfKey b) (cfKey a) with h | h
    · exact Or.inl (by show cfLess b a = false; rw [cfLess_eq_key]; exact h)
    · exact Or.inr (by show cfLess a b = false; rw [cfLess_eq_key]; exact h)⟩

/-- Model of `sortCharMetaByFreq`: `sort.Slice` with `cfLess`. -/
def sortCharMetaByFreq (l : List CharMeta) : List CharMeta := List.insertionSort cfR l

/-- Pre-sort list of CharMeta entries built by the parallel phase of
`BuildFullCodeMetaList`: one entry per (character, division) pair, appended
unconditionally.  The batch/merge concurrency only permutes this list, which
the final sort then fixes. -/
def buildCharMetas (table : List (Str × List Division)) (mappings : Str → Str)
    (freqSet : Str → Int) : List CharMeta :=
  table.flatMap fun cd =>
    (cd.2.enum).map fun idiv =>
      let fc := calcFullCodeByDiv idiv.2.divs mappings
      { char := cd.1, full := fc.1, code := fc.2, freq := freqSet cd.1,
        mdiv := idiv.1 == 0, simp := false, division := some idiv.2 }

/-- Model of `BuildFullCodeMetaList` from `gen_ll/tools/builder.go`, whose
final step is `sortCharMetaByCode`. -/
def BuildFullCodeMetaList (table : List (Str × List Division)) (mappings : Str → Str)
    (freqSet : Str → Int) : List CharMeta :=
  sortCharMetaByCode (buildCharMetas table mappings freqSet)

/-- Model of the part_000 revision of `BuildFullCodeMetaList`, whose final
step is `sortCharMetaByFreq` instead. -/
def BuildFullCodeMetaListFreq (table : List (Str × List Division)) (mappings : Str → Str)
    (freqSet : Str → Int) : List CharMeta :=
  sortCharMetaByFreq (buildCharMetas table mappings freqSet)

theorem finishCode_snd_length (full code : Str) : (finishCode full code).2.length ≤ 4 := by
  simp only [finishCode, toLowerStr, List.length_map]
  split
  · simp
  · omega

theorem finishCode_snd_lower (full code : Str) :
    ∀ ch ∈ (finishCode full code).2, Char.toLower ch = ch := by
  intro ch hch
  simp only [finishCode, toLowerStr, List.mem_map] at hch
  obtain ⟨x, _, rfl⟩ := hch
  exact toLower_toLower x

theorem snd_mem_of_mem_enumFrom {α : Type} :
    ∀ (l : List α) (n : Nat) (p : Nat × α), p ∈ l.enumFrom n → p.2 ∈ l
  | [], _, p, h => by simp [List.enumFrom] at h
  | a :: l, n, p, h => by
    simp only [List.enumFrom, List.mem_cons] at h
    rcases h with h | h
    · subst h
      exact List.mem_cons_self _ _
    · exact List.mem_cons_of_mem _ (snd_mem_of_mem_enumFrom l (n + 1) p h)

/-- C1: for a single-root decomposition whose sole component has a non-empty
component code `c`, `calcFullCodeByDiv` produces the code
`c[0] + (c[1] or c[0]) + (c[1] or c[0]) + (c[2] or c[1] or c[0])`,
truncated to four symbols and lower-cased. -/
theorem single_root_full_code (m : Str → Str) (s c : Str) (hm : m s = c) (hc : c ≠ []) :
    (calcFullCodeByDiv [s] m).2 =
      toLowerStr (([c.headD 'x',
        if 2 ≤ c.length then c.getD 1 'x' else c.headD 'x',
        if 2 ≤ c.length then c.getD 1 'x' else c.headD 'x',
        if 3 ≤ c.length then c.getD 2 'x'
          else if c.length = 2 then c.getD 1 'x' else c.headD 'x']).take 4) := by
  have h1 : calcFullCodeByDiv [s] m =
      (if (m s).length = 0 then ([], [])
       else finishCode (buildFullAnnot [s] m)
         (compBig (m s) ++ compMid (m s) ++ compMid (m s) ++ compSmall (m s))) := rfl
  rw [h1, hm]
  rcases c with _ | ⟨a, _ | ⟨b, _ | ⟨d, t⟩⟩⟩
  · exact absurd rfl hc
  · simp [compBig, compMid, compSmall, finishCode, toLowerStr]
  · simp [compBig, compMid, compSmall, finishCode, toLowerStr]
  · have h2 : 2 ≤ (a :: b :: d :: t).length := by simp
    have h3 : 3 ≤ (a :: b :: d :: t).length := by simp
    simp [compBig, compMid, compSmall, finishCode, toLowerStr, h2, h3]

/-- Witness for C1: component code `"abc"` yields `"abbc"` (also exercising
lowercasing from `"ABC"`), and component code `"a"` yields `"aaaa"`. -/
theorem single_root_full_code_witness :
    (calcFullCodeByDiv [['k']] (fun t => if t = ['k'] then ['A', 'B', 'C'] else [])).2
        = ['a', 'b', 'b', 'c'] ∧
      (calcFullCodeByDiv [['w']] (fun t => if t = ['w'] then ['a'] else [])).2
        = ['a', 'a', 'a', 'a'] :=
  ⟨(single_root_full_code (fun t => if t = ['k'] then ['A', 'B', 'C'] else [])
      ['k'] ['A', 'B', 'C'] (by decide) (by decide)).trans (by decide),
    (single_root_full_code (fun t => if t = ['w'] then ['a'] else [])
      ['w'] ['a'] (by decide) (by decide)).trans (by decide)⟩

/-- C8: every code produced by `calcFullCodeByDiv` on a non-empty
decomposition has length at most four and is lower-cased (fixed by
`toLower`), and hence so does every CharMeta code in the output of
`BuildFullCodeMetaList` when all decompositions are non-empty. -/
theorem full_code_length_le_four_and_lowercase :
    (∀ (div : List Str) (m : Str → Str), div ≠ [] →
        (calcFullCodeByDiv div m).2.length ≤ 4 ∧
        ∀ ch ∈ (calcFullCodeByDiv div m).2, Char.toLower ch = ch) ∧
    (∀ (table : List (Str × List Division)) (m : Str → Str) (freqSet : Str → Int),
        (∀ p ∈ table, ∀ d ∈ p.2, d.divs ≠ []) →
        ∀ cm ∈ BuildFullCodeMetaList table m freqSet,
          cm.code.length ≤ 4 ∧ ∀ ch ∈ cm.code, Char.toLower ch = ch) := by
  have partA : ∀ (div : List Str) (m : Str → Str), div ≠ [] →
      (calcFullCodeByDiv div m).2.length ≤ 4 ∧
      ∀ ch ∈ (calcFullCodeByDiv div m).2, Char.toLower ch = ch := by
    intro div m hdiv
    rcases div with _ | ⟨d0, _ | ⟨d1, _ | ⟨d2, rest⟩⟩⟩
    · exact absurd rfl hdiv
    · have he : calcFullCodeByDiv [d0] m =
          (if (m d0).length = 0 then ([], [])
           else finishCode (buildFullAnnot [d0] m)
             (compBig (m d0) ++ compMid (m d0) ++ compMid (m d0) ++ compSmall (m d0))) := rfl
      rw [he]
      split
      · simp
      · exact ⟨finishCode_snd_length _ _, finishCode_snd_lower _ _⟩
    · have he : calcFullCodeByDiv [d0, d1] m =
          (if (m d0).length = 0 ∨ (m d1).length = 0 then ([], [])
           else finishCode (buildFullAnnot [d0, d1] m)
             (compBig (m d0) ++ compBig (m d1) ++ compMid (m d0) ++ compSmall (m d1))) := rfl
      rw [he]
      split
      · simp
      · exact ⟨finishCode_snd_length _ _, finishCode_snd_lower _ _⟩
    · have he : calcFullCodeByDiv (d0 :: d1 :: d2 :: rest) m =
          (if (m d0).length = 0 ∨ (m d1).length = 0 ∨
              (m ((d2 :: rest).getLastD d2)).length = 0 then ([], [])
           else finishCode (buildFullAnnot (d0 :: d1 :: d2 :: rest) m)
             (compBig (m d0) ++ compBig (m d1) ++ compBig (m ((d2 :: rest).getLastD d2)) ++
               compSmall (m ((d2 :: rest).getLastD d2)))) := rfl
      rw [he]
      split
      · simp
      · exact ⟨finishCode_snd_length _ _, finishCode_snd_lower _ _⟩
  refine ⟨partA, ?_⟩
  intro table m freqSet htable cm hcm
  have hmem : cm ∈ buildCharMetas table m freqSet :=
    (List.perm_insertionSort cmR (buildCharMetas table m freqSet)).mem_iff.mp hcm
  simp only [buildCharMetas, List.mem_flatMap, List.mem_map] at hmem
  obtain ⟨cd, hcd, idiv, hidiv, rfl⟩ := hmem
  have hdivs : idiv.2.divs ≠ [] :=
    htable cd hcd idiv.2 (snd_mem_of_mem_enumFrom cd.2 0 idiv hidiv)
  exact partA idiv.2.divs m hdivs

/-- Witness for C8, applying both halves concretely. -/
theorem full_code_length_le_four_and_lowercase_witness :
    (([['q'], ['r'], ['s'], ['t']] : List Str) ≠ [] ∧
      (calcFullCodeByDiv [['q'], ['r'], ['s'], ['t']] (fun _ => ['Q', 'W'])).2.length ≤ 4 ∧
      ∀ ch ∈ (calcFullCodeByDiv [['q'], ['r'], ['s'], ['t']] (fun _ => ['Q', 'W'])).2,
        Char.toLower ch = ch) ∧
    ∀ cm ∈ BuildFullCodeMetaList
        [(['木'], [⟨['木'], [['a']], [], [], []⟩])] (fun _ => ['X', 'Y', 'Z']) (fun _ => 7),
      cm.code.length ≤ 4 ∧ ∀ ch ∈ cm.code, Char.toLower ch = ch :=
  ⟨⟨by decide,
      full_code_length_le_four_and_lowercase.1 [['q'], ['r'], ['s'], ['t']]
        (fun _ => ['Q', 'W']) (by decide)⟩,
    full_code_length_le_four_and_lowercase.2
      [(['木'], [⟨['木'], [['a']], [], [], []⟩])] (fun _ => ['X', 'Y', 'Z']) (fun _ => 7)
      (by decide)⟩

/-! ### Word full-code builder (`BuildWordsFullCode`) -/

/-- Model of `BuildWordsFullCode`: for each word entry compute a code by the
per-length rule (length switch on the rune count), and keep the entry only
when the computed code is non-empty. -/
def BuildWordsFullCode (wordEntries : List WordEntry) (charCodeMap : Str → Str) :
    List WordCode :=
  wordEntries.filterMap fun entry =>
    let chars := entry.word
    let code : Str :=
      match chars with
      | [a, b] =>
        let firstCode := charCodeMap [a]
        let secondCode := charCodeMap [b]
        if 2 ≤ firstCode.length ∧ 2 ≤ secondCode.length then
          firstCode.take 2 ++ secondCode.take 2
        else []
      | [a, b, c] =>
        let firstCode := charCodeMap [a]
        let secondCode := charCodeMap [b]
        let thirdCode := charCodeMap [c]
        if 1 ≤ firstCode.length ∧ 1 ≤ secondCode.length ∧ 2 ≤ thirdCode.length then
          firstCode.take 1 ++ secondCode.take 1 ++ thirdCode.take 2
        else []
      | a :: b :: c :: d :: rest =>
        let firstCode := charCodeMap [a]
        let secondCode := charCodeMap [b]
        let thirdCode := charCodeMap [c]
        let lastCode := charCodeMap [(d :: rest).getLastD d]
        if 1 ≤ firstCode.length ∧ 1 ≤ secondCode.length ∧ 1 ≤ thirdCode.length ∧
            1 ≤ lastCode.length then
          firstCode.take 1 ++ secondCode.take 1 ++ thirdCode.take 1 ++ lastCode.take 1
        else []
      | _ => []
    if code ≠ [] then some ⟨entry.word, code, entry.weight⟩ else none

/-- Word-code derivation exactly as the specification words it: a partial
function yielding the entry when the stated length conditions hold and
nothing otherwise. -/
def wordCodeSpec (charCodeMap : Str → Str) (e : WordEntry) : Option WordCode :=
  match e.word with
  | [a, b] =>
    if 2 ≤ (charCodeMap [a]).length ∧ 2 ≤ (charCodeMap [b]).length then
      some ⟨e.word, (charCodeMap [a]).take 2 ++ (charCodeMap [b]).take 2, e.weight⟩
    else none
  | [a, b, c] =>
    if 1 ≤ (charCodeMap [a]).length ∧ 1 ≤ (charCodeMap [b]).length ∧
        2 ≤ (charCodeMap [c]).length then
      some ⟨e.word,
        (charCodeMap [a]).take 1 ++ (charCodeMap [b]).take 1 ++ (charCodeMap [c]).take 2,
        e.weight⟩
    else none
  | a :: b :: c :: d :: rest =>
    if 1 ≤ (charCodeMap [a]).length ∧ 1 ≤ (charCodeMap [b]).length ∧
        1 ≤ (charCodeMap [c]).length ∧ 1 ≤ (charCodeMap [(d :: rest).getLastD d]).length then
      some ⟨e.word,
        (charCodeMap [a]).take 1 ++ (charCodeMap [b]).take 1 ++
          (charCodeMap [c]).take 1 ++ (charCodeMap [(d :: rest).getLastD d]).take 1,
        e.weight⟩
    else none
  | _ => none

theorem take_ne_nil_of_length_pos {l : Str} {n : Nat} (h : 1 ≤ l.length) (hn : 0 < n) :
    l.take n ≠ [] := by
  rcases l with _ | ⟨a, t⟩
  · simp at h
  · rcases n with _ | n
    · omega
    · simp [List.take]

/-- C2: `BuildWordsFullCode` is exactly the per-entry specification rule
applied with `filterMap`: two-character words take the first two symbols of
both codes, three-character words one symbol of the first two plus two of
the third, longer words one symbol of the first three and of the last
character; entries failing the length requirements are silently dropped. -/
theorem words_full_code_characterization (wordEntries : List WordEntry)
    (charCodeMap : Str → Str) :
    BuildWordsFullCode wordEntries charCodeMap =
      wordEntries.filterMap (wordCodeSpec charCodeMap) := by
  unfold BuildWordsFullCode
  congr 1
  funext entry
  rcases he : entry.word with _ | ⟨a, _ | ⟨b, _ | ⟨c, _ | ⟨d, rest⟩⟩⟩⟩ <;>
    simp only [wordCodeSpec, he]
  · rfl
  · rfl
  · by_cases hcond : 2 ≤ (charCodeMap [a]).length ∧ 2 ≤ (charCodeMap [b]).length
    · rw [if_pos hcond, if_pos hcond, if_pos]
      exact List.append_ne_nil_of_left_ne_nil
        (take_ne_nil_of_length_pos (by omega) (by omega)) _
    · rw [if_neg hcond, if_neg hcond, if_neg]
      simp
  · by_cases hcond : 1 ≤ (charCodeMap [a]).length ∧ 1 ≤ (charCodeMap [b]).length ∧
        2 ≤ (charCodeMap [c]).length
    · rw [if_pos hcond, if_pos hcond, if_pos]
      exact List.append_ne_nil_of_left_ne_nil
        (List.append_ne_nil_of_left_ne_nil
          (take_ne_nil_of_length_pos (by omega) (by omega)) _) _
    · rw [if_neg hcond, if_neg hcond, if_neg]
      simp
  · by_cases hcond : 1 ≤ (charCodeMap [a]).length ∧ 1 ≤ (charCodeMap [b]).length ∧
        1 ≤ (charCodeMap [c]).length ∧ 1 ≤ (charCodeMap [(d :: rest).getLastD d]).length
    · rw [if_pos hcond, if_pos hcond, if_pos]
      exact List.append_ne_nil_of_left_ne_nil
        (List.append_ne_nil_of_left_ne_nil
          (List.append_ne_nil_of_left_ne_nil
            (take_ne_nil_of_length_pos (by omega) (by omega)) _) _) _
    · rw [if_neg hcond, if_neg hcond, if_neg]
      simp

/-! ### Claims C5 and C6 about `BuildFullCodeMetaList` -/

/-- A decomposition references a missing (empty-coded) component in a
position that `calcFullCodeByDiv` actually consults: the sole component for
arity 1, either for arity 2, and the first, second or last for arity 3+. -/
def relevantCompMissing (m : Str → Str) : List Str → Prop
  | [] => True
  | [d0] => m d0 = []
  | [d0, d1] => m d0 = [] ∨ m d1 = []
  | d0 :: d1 :: d2 :: rest => m d0 = [] ∨ m d1 = [] ∨ m ((d2 :: rest).getLastD d2) = []

theorem calc_empty_of_relevantMissing {m : Str → Str} {div : List Str}
    (hmiss : relevantCompMissing m div) :
    calcFullCodeByDiv div m = ([], []) := by
  rcases div with _ | ⟨d0, _ | ⟨d1, _ | ⟨d2, rest⟩⟩⟩
  · rfl
  · have he : calcFullCodeByDiv [d0] m =
        (if (m d0).length = 0 then ([], [])
         else finishCode (buildFullAnnot [d0] m)
           (compBig (m d0) ++ compMid (m d0) ++ compMid (m d0) ++ compSmall (m d0))) := rfl
    rw [he, if_pos]
    simp only [relevantCompMissing] at hmiss
    simp [hmiss]
  · have he : calcFullCodeByDiv [d0, d1] m =
        (if (m d0).length = 0 ∨ (m d1).length = 0 then ([], [])
         else finishCode (buildFullAnnot [d0, d1] m)
           (compBig (m d0) ++ compBig (m d1) ++ compMid (m d0) ++ compSmall (m d1))) := rfl
    rw [he, if_pos]
    simp only [relevantCompMissing] at hmiss
    rcases hmiss with h | h <;> simp [h]
  · have he : calcFullCodeByDiv (d0 :: d1 :: d2 :: rest) m =
        (if (m d0).length = 0 ∨ (m d1).length = 0 ∨
            (m ((d2 :: rest).getLastD d2)).length = 0 then ([], [])
         else finishCode (buildFullAnnot (d0 :: d1 :: d2 :: rest) m)
           (compBig (m d0) ++ compBig (m d1) ++ compBig (m ((d2 :: rest).getLastD d2)) ++
             compSmall (m ((d2 :: rest).getLastD d2)))) := rfl
    rw [he, if_pos]
    simp only [relevantCompMissing] at hmiss
    rcases hmiss with h | h | h
    · exact Or.inl (by rw [h]; rfl)
    · exact Or.inr (Or.inl (by rw [h]; rfl))
    · exact Or.inr (Or.inr (by rw [h]; rfl))

theorem mem_enumFrom_of_mem {α : Type} {a : α} :
    ∀ (l : List α) (n : Nat), a ∈ l → ∃ i, (i, a) ∈ l.enumFrom n
  | [], _, h => by simp at h
  | b :: l, n, h => by
    rcases List.mem_cons.mp h with h | h
    · exact ⟨n, by simp [List.enumFrom, h]⟩
    · obtain ⟨i, hi⟩ := mem_enumFrom_of_mem l (n + 1) h
      exact ⟨i, by simp [List.enumFrom, Or.inr hi]⟩

/-- C5 counterexample: one character decomposed into one component whose
code is missing.  The claim says the output contains no entry for the pair;
in fact `BuildFullCodeMetaList` keeps the entry, with empty full and code. -/
theorem missing_component_counterexample :
    (BuildFullCodeMetaList [(['丁'], [⟨['丁'], [['z']], [], [], []⟩])]
        (fun _ => []) (fun _ => 0)).length = 1 ∧
    (BuildFullCodeMetaList [(['丁'], [⟨['丁'], [['z']], [], [], []⟩])]
        (fun _ => []) (fun _ => 0)).map (fun cm => cm.code) = [[]] := by
  constructor <;> rfl

/-- C5 amended: a decomposition whose consulted components are missing
yields empty full code and code, but the CharMeta entry is retained (one
output entry per (character, decomposition) pair, always); nothing is
reported. -/
theorem missing_component_entries_retained (table : List (Str × List Division))
    (m : Str → Str) (f : Str → Int) :
    (BuildFullCodeMetaList table m f).length = (table.map (fun cd => cd.2.length)).sum ∧
    ∀ cd ∈ table, ∀ div ∈ cd.2, relevantCompMissing m div.divs →
      ∃ cm ∈ BuildFullCodeMetaList table m f,
        cm.char = cd.1 ∧ cm.division = some div ∧ cm.full = [] ∧ cm.code = [] := by
  have hperm := List.perm_insertionSort cmR (buildCharMetas table m f)
  constructor
  · rw [show BuildFullCodeMetaList table m f =
        List.insertionSort cmR (buildCharMetas table m f) from rfl, hperm.length_eq]
    simp only [buildCharMetas, List.flatMap_def, List.length_flatten, List.map_map]
    refine congrArg List.sum (List.map_congr_left fun cd _ => ?_)
    simp [Function.comp, List.enum]
  · intro cd hcd div hdiv hmiss
    obtain ⟨i, hi⟩ := mem_enumFrom_of_mem cd.2 0 hdiv
    have hmem : (⟨cd.1, (calcFullCodeByDiv div.divs m).1,
        (calcFullCodeByDiv div.divs m).2, f cd.1, i == 0, false, some div⟩ : CharMeta) ∈
          buildCharMetas table m f := by
      simp only [buildCharMetas, List.mem_flatMap, List.mem_map]
      exact ⟨cd, hcd, (i, div), hi, rfl⟩
    rw [calc_empty_of_relevantMissing hmiss] at hmem
    refine ⟨_, hperm.mem_iff.mpr hmem, rfl, rfl, rfl, rfl⟩

/-- Witness for the amended C5, applied at the counterexample input. -/
theorem missing_component_entries_retained_witness :
    ∃ cm ∈ BuildFullCodeMetaList [(['丁'], [⟨['丁'], [['z']], [], [], []⟩])]
        (fun _ => []) (fun _ => 0),
      cm.char = ['丁'] ∧ cm.division = some ⟨['丁'], [['z']], [], [], []⟩ ∧
        cm.full = [] ∧ cm.code = [] :=
  (missing_component_entries_retained [(['丁'], [⟨['丁'], [['z']], [], [], []⟩])]
      (fun _ => []) (fun _ => 0)).2
    (['丁'], [⟨['丁'], [['z']], [], [], []⟩]) (by decide)
    ⟨['丁'], [['z']], [], [], []⟩ (by decide) rfl

/-- C6 counterexample: the part_000 revision of `BuildFullCodeMetaList`
ends with `sortCharMetaByFreq`, so on a table where frequency order
disagrees with code order the returned list is not sorted by code. -/
theorem full_code_sort_counterexample :
    ¬ List.Sorted cmR (BuildFullCodeMetaListFreq
        [(['一'], [⟨['一'], [['b']], [], [], []⟩]),
         (['二'], [⟨['二'], [['a']], [], [], []⟩])]
        (fun s => s) (fun ch => if ch = ['一'] then 2 else 1)) := by
  decide

/-- C6 amended: the builder.go revision of `BuildFullCodeMetaList` returns
the list sorted by (code ascending, frequency descending, character
ascending); the part_000 revision returns it sorted by (frequency
descending, code ascending, character ascending) instead. -/
theorem full_code_meta_list_sorted (table : List (Str × List Division))
    (m : Str → Str) (f : Str → Int) :
    List.Sorted cmR (BuildFullCodeMetaList table m f) ∧
    List.Sorted cfR (BuildFullCodeMetaListFreq table m f) :=
  ⟨List.sorted_insertionSort cmR _, List.sorted_insertionSort cfR _⟩

/-! ### Word simplifier allocation core (`BuildWordsSimpleCode`, builder.go
revision; the part_000 revision appends sorting and placeholder back-fill on
top of the same core) -/

/-- Model of `parseWeight`: Go `strconv.ParseInt(s, 10, 64)` with any
parse error (empty, bad sign/digits, overflow) defaulting to zero. -/
def parseWeight (weightStr : Str) : Int :=
  if weightStr = [] then 0
  else
    let sd : Bool × Str :=
      match weightStr with
      | '-' :: rest => (true, rest)
      | '+' :: rest => (false, rest)
      | _ => (false, weightStr)
    if sd.2 = [] then 0
    else if sd.2.all (fun c => '0' ≤ c && c ≤ '9') then
      let n : Nat := sd.2.foldl (fun acc c => acc * 10 + (c.toNat - 48)) 0
      let v : Int := if sd.1 then -(n : Int) else (n : Int)
      if v < -(2 ^ 63) ∨ 2 ^ 63 - 1 < v then 0 else v
    else 0

/-- Order realised by the weight-descending pre-sort of
`BuildWordsSimpleCode` (`sort.Slice` with `weightA > weightB`). -/
def wwR (a b : WordCode) : Prop := intGt (parseWeight b.weight) (parseWeight a.weight) = false

instance : DecidableRel wwR :=
  fun a b => inferInstanceAs (Decidable (intGt (parseWeight b.weight) (parseWeight a.weight) = false))

/-- Inner length loop of `BuildWordsSimpleCode`: try abbreviation lengths in
order, returning the accepted (length, base code) pair.  Length 2 applies
only to two-character words (with base `code[0] + code[2]`), length 3 only
to three-character words. -/
def tryWordLens (q : Nat → Nat) (counters : Nat → Str → Nat) (code : Str)
    (wordLength : Nat) : List Nat → Option (Nat × Str)
  | [] => none
  | codeLength :: ls =>
    if q codeLength = 0 then tryWordLens q counters code wordLength ls
    else if codeLength = 2 ∧ wordLength ≠ 2 then tryWordLens q counters code wordLength ls
    else if codeLength = 3 ∧ wordLength ≠ 3 then tryWordLens q counters code wordLength ls
    else
      match
        (if codeLength = 2 ∧ wordLength = 2 then
          (if 3 ≤ code.length then some (code.take 1 ++ (code.drop 2).take 1) else none)
         else
          (if codeLength ≤ code.length then some (code.take codeLength) else none)) with
      | none => tryWordLens q counters code wordLength ls
      | some baseCode =>
        if counters codeLength baseCode < q codeLength then some (codeLength, baseCode)
        else tryWordLens q counters code wordLength ls

/-- One allocation step of `BuildWordsSimpleCode`: on success append the
entry and bump the per-(length, base) counter. -/
def wordsSimpleStep (q : Nat → Nat) (st : List WordSimpleCode × (Nat → Str → Nat))
    (wordCode : WordCode) : List WordSimpleCode × (Nat → Str → Nat) :=
  match tryWordLens q st.2 wordCode.code wordCode.word.length [1, 2, 3] with
  | none => st
  | some lb =>
    (st.1 ++ [⟨wordCode.word, lb.2, wordCode.weight⟩],
     fun L b => if L = lb.1 ∧ b = lb.2 then st.2 lb.1 lb.2 + 1 else st.2 L b)

/-- Model of `BuildWordsSimpleCode` (builder.go revision): weight-descending
sort, then greedy allocation under the per-(length, base) counters. -/
def BuildWordsSimpleCode (wordCodes : List WordCode) (q : Nat → Nat) : List WordSimpleCode :=
  ((List.insertionSort wwR wordCodes).foldl (wordsSimpleStep q) ([], fun _ _ => 0)).1

theorem tryWordLens_spec {q : Nat → Nat} {counters : Nat → Str → Nat} {code : Str}
    {wl : Nat} : ∀ {ls : List Nat} {L : Nat} {b : Str},
    tryWordLens q counters code wl ls = some (L, b) →
    L ∈ ls ∧ q L ≠ 0 ∧ b.length = L ∧ counters L b < q L := by
  intro ls
  induction ls with
  | nil => intro L b h; simp [tryWordLens] at h
  | cons codeLength ls ih =>
    intro L b h
    rw [tryWordLens] at h
    split at h
    · exact ⟨List.mem_cons_of_mem _ (ih h).1, (ih h).2⟩
    · split at h
      · exact ⟨List.mem_cons_of_mem _ (ih h).1, (ih h).2⟩
      · split at h
        · exact ⟨List.mem_cons_of_mem _ (ih h).1, (ih h).2⟩
        · rename_i hq h2 h3
          split at h
          · exact ⟨List.mem_cons_of_mem _ (ih h).1, (ih h).2⟩
          · rename_i baseCode hbase
            split at h
            · rename_i hcnt
              simp only [Option.some.injEq, Prod.mk.injEq] at h
              obtain ⟨rfl, rfl⟩ := h
              refine ⟨List.mem_cons_self _ _, hq, ?_, hcnt⟩
              split at hbase
              · split at hbase
                · rename_i hlen
                  simp only [Option.some.injEq] at hbase
                  subst hbase
                  have e1 : (code.take 1).length = 1 := by
                    rw [List.length_take]; omega
                  have e2 : (((code.drop 2)).take 1).length = 1 := by
                    rw [List.length_take, List.length_drop]; omega
                  rw [List.length_append, e1, e2]
                  omega
                · cases hbase
              · split at hbase
                · rename_i hlen
                  simp only [Option.some.injEq] at hbase
                  subst hbase
                  rw [List.length_take]
                  omega
                · cases hbase
            · exact ⟨List.mem_cons_of_mem _ (ih h).1, (ih h).2⟩

/-- Invariant of the word-simplifier fold: each counter at a matching length
equals the number of accepted entries carrying that base code, and counters
never exceed the quota. -/
def WordsInv (q : Nat → Nat) (st : List WordSimpleCode × (Nat → Str → Nat)) : Prop :=
  (∀ L (base : Str), base.length = L →
    st.2 L base = st.1.countP (fun e => e.code == base)) ∧
  (∀ L (base : Str), st.2 L base ≤ q L)

theorem wordsSimpleStep_inv {q : Nat → Nat} {st : List WordSimpleCode × (Nat → Str → Nat)}
    (hinv : WordsInv q st) (wordCode : WordCode) :
    WordsInv q (wordsSimpleStep q st wordCode) := by
  unfold wordsSimpleStep
  split
  · exact hinv
  · rename_i lb heq
    obtain ⟨-, hq, hlen, hcnt⟩ := tryWordLens_spec heq
    constructor
    · intro L base hbase
      show (if L = lb.1 ∧ base = lb.2 then st.2 lb.1 lb.2 + 1 else st.2 L base) =
        (st.1 ++ [(⟨wordCode.word, lb.2, wordCode.weight⟩ : WordSimpleCode)]).countP
          (fun e => e.code == base)
      rw [List.countP_append]
      by_cases hb : base = lb.2
      · subst hb
        have hL : L = lb.1 := hbase.symm.trans hlen
        subst hL
        rw [if_pos ⟨rfl, rfl⟩, hinv.1 _ _ hbase]
        simp
      · rw [if_neg (fun hc => hb hc.2), hinv.1 L base hbase]
        have hne : ((⟨wordCode.word, lb.2, wordCode.weight⟩ : WordSimpleCode).code == base)
            = false := by
          simp only [beq_eq_false_iff_ne, ne_eq]
          exact fun hc => hb hc.symm
        simp [List.countP_cons, hne]
    · intro L base
      show (if L = lb.1 ∧ base = lb.2 then st.2 lb.1 lb.2 + 1 else st.2 L base) ≤ q L
      by_cases hc : L = lb.1 ∧ base = lb.2
      · rw [if_pos hc, hc.1]
        omega
      · rw [if_neg hc]
        exact hinv.2 L base

theorem wordsFold_inv {q : Nat → Nat} :
    ∀ (ls : List WordCode) (st : List WordSimpleCode × (Nat → Str → Nat)),
    WordsInv q st → WordsInv q (ls.foldl (wordsSimpleStep q) st)
  | [], _, h => h
  | wc :: ls, st, h => wordsFold_inv ls _ (wordsSimpleStep_inv h wc)

/-- Core quota bound for the word simplifier: at most `quota (length base)`
accepted entries ever carry the same base code. -/
theorem wordsCore_count_le (wordCodes : List WordCode) (q : Nat → Nat) (base : Str) :
    (BuildWordsSimpleCode wordCodes q).countP (fun e => e.code == base) ≤ q base.length := by
  have hinv : WordsInv q (((List.insertionSort wwR wordCodes)).foldl
      (wordsSimpleStep q) ([], fun _ _ => 0)) := by
    apply wordsFold_inv
    exact ⟨fun L base _ => rfl, fun L base => Nat.zero_le _⟩
  rw [show BuildWordsSimpleCode wordCodes q =
    ((List.insertionSort wwR wordCodes).foldl (wordsSimpleStep q) ([], fun _ _ => 0)).1 from rfl]
  rw [← hinv.1 base.length base rfl]
  exact hinv.2 base.length base

/-! ### Single-character simplifier (`BuildSimpleCodeList`) -/

theorem isPrefixOf_iff_take : ∀ (p l : Str), p.isPrefixOf l = true ↔ l.take p.length = p
  | [], l => by simp [List.isPrefixOf]
  | a :: p, [] => by simp [List.isPrefixOf]
  | a :: p, b :: l => by
    simp only [List.isPrefixOf, Bool.and_eq_true, beq_iff_eq, List.length_cons, List.take,
      List.cons.injEq, isPrefixOf_iff_take p l]
    constructor
    · rintro ⟨rfl, h⟩
      exact ⟨rfl, h⟩
    · rintro ⟨rfl, h⟩
      exact ⟨rfl, h⟩

/-- Target simplified-code length for prefix length `p`: prefix lengths one
and two get the full code's last symbol appended. -/
def targetLen (p : Nat) : Nat := if p ≤ 2 then p + 1 else p

/-- Count of already-accepted simple-code entries whose code has the target
length and the given prefix (the `samePrefixCount` loop). -/
def bucketCountP (tl : Nat) (pre : Str) (rd : List CharMeta) : Nat :=
  rd.countP fun res => res.code.length == tl && pre.isPrefixOf res.code

/-- Candidate simplified code at prefix length `p`: the prefix plus the full
code's last symbol for `p ≤ 2`, the bare prefix otherwise. -/
def mkCand (code : Str) (lastChar : Char) (p : Nat) : Str :=
  if p ≤ 2 then code.take p ++ [lastChar] else code.take p

/-- Inner prefix-length loop of `BuildSimpleCodeList`: indices `i` range
over `0 .. len(code)-1`; prefix length is `i+1`.  Skip zero quotas, skip
full buckets, skip globally used candidate strings; accept the first
remaining candidate. -/
def trySimplify (q : Nat → Nat) (rd : List CharMeta) (used : List Str)
    (code : Str) (lastChar : Char) : List Nat → Option Str
  | [] => none
  | i :: is =>
    if q (i + 1) = 0 then trySimplify q rd used code lastChar is
    else
      if q (i + 1) ≤ bucketCountP (targetLen (i + 1)) (code.take (i + 1)) rd then
        trySimplify q rd used code lastChar is
      else
        if mkCand code lastChar (i + 1) ∈ used then trySimplify q rd used code lastChar is
        else some (mkCand code lastChar (i + 1))

/-- One character's step: accepted candidates are always recorded in the
used set; an entry is appended only when the candidate differs from the full
code.  Go reads `code[len(code)-1]` unconditionally (panicking on an empty
code), modelled by `getLastD`; all theorems assume non-empty codes. -/
def simpleStep (q : Nat → Nat) (st : List CharMeta × List Str) (cm : CharMeta) :
    List CharMeta × List Str :=
  match trySimplify q st.1 st.2 cm.code (cm.code.getLastD 'x') (List.range cm.code.length) with
  | none => st
  | some simplified =>
    (if simplified ≠ cm.code then
      st.1 ++ [⟨cm.char, [], simplified, cm.freq, false, true, none⟩]
     else st.1,
     simplified :: st.2)

/-- Skip characters in the no-simplify set, else run the step. -/
def simpleProcess (q : Nat → Nat) (noSet : List Str) (st : List CharMeta × List Str)
    (cm : CharMeta) : List CharMeta × List Str :=
  if cm.char ∈ noSet then st else simpleStep q st cm

/-- Order realised by the frequency-descending pre-sort of
`BuildSimpleCodeList` (`sort.Slice` with `Freq >`). -/
def sfR (a b : CharMeta) : Prop := intGt b.freq a.freq = false

instance : DecidableRel sfR := fun a b => inferInstanceAs (Decidable (intGt b.freq a.freq = false))

/-- Model of `BuildSimpleCodeList` (builder.go revision). -/
def BuildSimpleCodeList (fullCodeList : List CharMeta) (q : Nat → Nat)
    (noSimplifyChars : List Str) : List CharMeta :=
  ((List.insertionSort sfR fullCodeList).foldl (simpleProcess q noSimplifyChars) ([], [])).1

/-- Model of the part_000 revision of `BuildSimpleCodeList`, which re-sorts
the result by frequency before returning it. -/
def BuildSimpleCodeListFreq (fullCodeList : List CharMeta) (q : Nat → Nat)
    (noSimplifyChars : List Str) : List CharMeta :=
  sortCharMetaByFreq (BuildSimpleCodeList fullCodeList q noSimplifyChars)

theorem trySimplify_spec {q : Nat → Nat} {rd : List CharMeta} {used : List Str}
    {code : Str} {lastChar : Char} : ∀ {is : List Nat} {cand : Str},
    trySimplify q rd used code lastChar is = some cand →
    ∃ i ∈ is, q (i + 1) ≠ 0 ∧
      bucketCountP (targetLen (i + 1)) (code.take (i + 1)) rd < q (i + 1) ∧
      cand = mkCand code lastChar (i + 1) ∧
      cand ∉ used := by
  intro is
  induction is with
  | nil => intro cand h; simp [trySimplify] at h
  | cons i is ih =>
    intro cand h
    rw [trySimplify] at h
    split at h
    · obtain ⟨j, hj, hrest⟩ := ih h
      exact ⟨j, List.mem_cons_of_mem _ hj, hrest⟩
    · split at h
      · obtain ⟨j, hj, hrest⟩ := ih h
        exact ⟨j, List.mem_cons_of_mem _ hj, hrest⟩
      · split at h
        · obtain ⟨j, hj, hrest⟩ := ih h
          exact ⟨j, List.mem_cons_of_mem _ hj, hrest⟩
        · rename_i hq hcnt hused
          simp only [Option.some.injEq] at h
          subst h
          exact ⟨i, List.mem_cons_self _ _, hq, by omega, rfl, hused⟩

/-- Invariant of the simplifier fold: accepted codes are pairwise distinct
and recorded in the used set, length-2 buckets respect `quota 1`, and (when
`quota 3 = 0`) length-3 buckets respect `quota 2`. -/
def SimpleInv (q : Nat → Nat) (st : List CharMeta × List Str) : Prop :=
  (st.1.map (fun cm => cm.code)).Nodup ∧
  (∀ e ∈ st.1, e.code ∈ st.2) ∧
  (∀ c : Char, bucketCountP 2 [c] st.1 ≤ q 1) ∧
  (q 3 = 0 → ∀ pre : Str, pre.length = 2 → bucketCountP 3 pre st.1 ≤ q 2)

theorem take_one_of_pos {l : Str} (h : 0 < l.length) : ∃ x, l.take 1 = [x] := by
  rcases l with _ | ⟨a, t⟩
  · simp at h
  · exact ⟨a, rfl⟩

theorem simpleStep_inv {q : Nat → Nat} {st : List CharMeta × List Str}
    (hinv : SimpleInv q st) (cm : CharMeta) : SimpleInv q (simpleStep q st cm) := by
  unfold simpleStep
  split
  · exact hinv
  · rename_i simplified heq
    obtain ⟨i, hi, hq, hcnt, hcand, hunused⟩ := trySimplify_spec heq
    rw [mkCand] at hcand
    have hilen : i < cm.code.length := List.mem_range.mp hi
    by_cases hne : simplified ≠ cm.code
    · rw [if_pos hne]
      have hdistinct : simplified ∉ st.1.map (fun cm => cm.code) := by
        intro hmem
        obtain ⟨e, he, hecode⟩ := List.mem_map.mp hmem
        exact hunused (hecode ▸ hinv.2.1 e he)
      refine ⟨?_, ?_, ?_, ?_⟩
      · rw [List.map_append]
        rw [List.nodup_append]
        refine ⟨hinv.1, List.nodup_singleton _, ?_⟩
        intro a ha hb
        simp only [List.map_cons, List.map_nil, List.mem_singleton] at hb
        subst hb
        exact hdistinct ha
      · intro e he
        rcases List.mem_append.mp he with he | he
        · exact List.mem_cons_of_mem _ (hinv.2.1 e he)
        · simp only [List.mem_singleton] at he
          subst he
          exact List.mem_cons_self _ _
      · intro c
        unfold bucketCountP
        rw [List.countP_append]
        have hone : List.countP
            (fun res => res.code.length == 2 && List.isPrefixOf [c] res.code)
            [(⟨cm.char, [], simplified, cm.freq, false, true, none⟩ : CharMeta)] ≤ 1 :=
          le_trans (List.countP_le_length _) (by simp)
        by_cases hpred : (simplified.length = 2 ∧ List.isPrefixOf [c] simplified = true)
        · obtain ⟨hlen2, hpfx⟩ := hpred
          by_cases hile : i + 1 ≤ 2
          · rw [if_pos hile] at hcand
            have htk : (cm.code.take (i + 1)).length = i + 1 := by
              rw [List.length_take]
              omega
            have hslen : simplified.length = i + 2 := by
              rw [hcand, List.length_append, htk]
              rfl
            have hi0 : i = 0 := by omega
            subst hi0
            have h01 : (0 : Nat) + 1 = 1 := rfl
            simp only [h01] at hcand hcnt
            obtain ⟨x, hx⟩ := @take_one_of_pos cm.code (by omega)
            rw [hx] at hcand
            have hcx : [c] = [x] := by
              rw [isPrefixOf_iff_take] at hpfx
              rw [hcand] at hpfx
              simp only [List.length_cons, List.length_nil] at hpfx
              simpa using hpfx.symm
            rw [show targetLen 1 = 2 from rfl, hx, ← hcx] at hcnt
            unfold bucketCountP at hcnt
            omega
          · rw [if_neg hile] at hcand
            have hslen : simplified.length = i + 1 := by
              rw [hcand, List.length_take]
              omega
            omega
        · have hp0 : List.countP
              (fun res => res.code.length == 2 && List.isPrefixOf [c] res.code)
              [(⟨cm.char, [], simplified, cm.freq, false, true, none⟩ : CharMeta)] = 0 := by
            simp only [List.countP_cons, List.countP_nil, Bool.and_eq_true, beq_iff_eq]
            simp only [Nat.zero_add, ite_eq_right_iff, Nat.one_ne_zero]
            intro hcontra
            exact absurd hcontra hpred
          rw [hp0]
          have hprev := hinv.2.2.1 c
          unfold bucketCountP at hprev
          omega
      · intro hq3 pre hpre
        unfold bucketCountP
        rw [List.countP_append]
        have hone : List.countP
            (fun res => res.code.length == 3 && List.isPrefixOf pre res.code)
            [(⟨cm.char, [], simplified, cm.freq, false, true, none⟩ : CharMeta)] ≤ 1 :=
          le_trans (List.countP_le_length _) (by simp)
        by_cases hpred : (simplified.length = 3 ∧ List.isPrefixOf pre simplified = true)
        · obtain ⟨hlen3, hpfx⟩ := hpred
          by_cases hile : i + 1 ≤ 2
          · rw [if_pos hile] at hcand
            have htk : (cm.code.take (i + 1)).length = i + 1 := by
              rw [List.length_take]
              omega
            have hslen : simplified.length = i + 2 := by
              rw [hcand, List.length_append, htk]
              rfl
            have hi1 : i = 1 := by omega
            subst hi1
            have h11 : (1 : Nat) + 1 = 2 := rfl
            simp only [h11] at hcand hcnt htk
            have hpfx2 : cm.code.take 2 = pre := by
              rw [isPrefixOf_iff_take] at hpfx
              rw [hcand, hpre] at hpfx
              rw [List.take_left' htk] at hpfx
              exact hpfx
            rw [show targetLen 2 = 3 from rfl, hpfx2] at hcnt
            unfold bucketCountP at hcnt
            omega
          · rw [if_neg hile] at hcand
            have hslen : simplified.length = i + 1 := by
              rw [hcand, List.length_take]
              omega
            have hi2 : i = 2 := by omega
            subst hi2
            exact absurd hq3 hq
        · have hp0 : List.countP
              (fun res => res.code.length == 3 && List.isPrefixOf pre res.code)
              [(⟨cm.char, [], simplified, cm.freq, false, true, none⟩ : CharMeta)] = 0 := by
            simp only [List.countP_cons, List.countP_nil, Bool.and_eq_true, beq_iff_eq]
            simp only [Nat.zero_add, ite_eq_right_iff, Nat.one_ne_zero]
            intro hcontra
            exact absurd hcontra hpred
          rw [hp0]
          have hprev := hinv.2.2.2 hq3 pre hpre
          unfold bucketCountP at hprev
          omega
    · rw [if_neg hne]
      refine ⟨hinv.1, ?_, hinv.2.2.1, hinv.2.2.2⟩
      intro e he
      exact List.mem_cons_of_mem _ (hinv.2.1 e he)

theorem simpleFold_inv {q : Nat → Nat} {noSet : List Str} :
    ∀ (ls : List CharMeta) (st : List CharMeta × List Str),
    SimpleInv q st → SimpleInv q (ls.foldl (simpleProcess q noSet) st)
  | [], _, h => h
  | cm :: ls, st, h => by
    have hstep : SimpleInv q (simpleProcess q noSet st cm) := by
      unfold simpleProcess
      split
      · exact h
      · exact simpleStep_inv h cm
    exact simpleFold_inv ls _ hstep

theorem simpleFold_mem {q : Nat → Nat} {noSet : List Str} :
    ∀ (ls : List CharMeta) (st : List CharMeta × List Str) (e : CharMeta),
    e ∈ (ls.foldl (simpleProcess q noSet) st).1 →
    e ∈ st.1 ∨ ∃ cm ∈ ls, ∃ cand : Str, cand ≠ cm.code ∧
      e = ⟨cm.char, [], cand, cm.freq, false, true, none⟩
  | [], _, e, h => Or.inl h
  | cm :: ls, st, e, h => by
    rcases simpleFold_mem ls (simpleProcess q noSet st cm) e h with h1 | ⟨cm', hcm', hrest⟩
    · unfold simpleProcess at h1
      split at h1
      · exact Or.inl h1
      · unfold simpleStep at h1
        split at h1
        · exact Or.inl h1
        · rename_i simplified heq
          split at h1
          · rcases List.mem_append.mp h1 with h2 | h2
            · exact Or.inl h2
            · simp only [List.mem_singleton] at h2
              rename_i hne
              exact Or.inr ⟨cm, List.mem_cons_self _ _, simplified, hne, h2⟩
          · exact Or.inl h1
    · exact Or.inr ⟨cm', List.mem_cons_of_mem _ hcm', hrest⟩

theorem bucketCountP_le_one_of_nodup {l : List CharMeta}
    (hnd : (l.map (fun cm => cm.code)).Nodup) {tl : Nat} {pre : Str}
    (hpre : pre.length = tl) : bucketCountP tl pre l ≤ 1 := by
  induction l with
  | nil => simp [bucketCountP]
  | cons e l ih =>
    simp only [List.map_cons, List.nodup_cons] at hnd
    unfold bucketCountP
    rw [List.countP_cons]
    by_cases hp : (e.code.length == tl && pre.isPrefixOf e.code) = true
    · have hp' := hp
      simp only [Bool.and_eq_true, beq_iff_eq] at hp'
      have hecode : e.code = pre := by
        rw [isPrefixOf_iff_take] at hp'
        rw [← hp'.2, hpre, ← hp'.1, List.take_length]
      have hzero : List.countP (fun res => res.code.length == tl && pre.isPrefixOf res.code)
          l = 0 := by
        rw [List.countP_eq_zero]
        intro a ha hpa
        simp only [Bool.and_eq_true, beq_iff_eq] at hpa
        have ha' : a.code = pre := by
          rw [isPrefixOf_iff_take] at hpa
          rw [← hpa.2, hpre, ← hpa.1, List.take_length]
        exact hnd.1 (List.mem_map.mpr ⟨a, ha, ha'.trans hecode.symm⟩)
      rw [hzero]
      simp [hp]
    · have := ih hnd.2
      unfold bucketCountP at this
      simp [hp]
      omega

theorem simpleInv_init (q : Nat → Nat) : SimpleInv q ([], []) := by
  refine ⟨List.nodup_nil, by simp, fun c => ?_, fun _ pre _ => ?_⟩ <;>
    (unfold bucketCountP; simp)

/-- C10: the simplified code strings in the output of `BuildSimpleCodeList`
are pairwise distinct, in both revisions: every accepted candidate is
recorded in one global used-codes set shared across prefix lengths and
checked before acceptance.  The hypothesis excludes empty full codes, on
which the Go code would panic reading the last symbol. -/
theorem simple_codes_pairwise_distinct (l : List CharMeta) (q : Nat → Nat) (n : List Str)
    (h : ∀ cm ∈ l, cm.code ≠ []) :
    ((BuildSimpleCodeList l q n).map (fun cm => cm.code)).Nodup ∧
    ((BuildSimpleCodeListFreq l q n).map (fun cm => cm.code)).Nodup := by
  have hinv := @simpleFold_inv q n (List.insertionSort sfR l) ([], [])
    (simpleInv_init q)
  have h1 : ((BuildSimpleCodeList l q n).map (fun cm => cm.code)).Nodup := hinv.1
  refine ⟨h1, ?_⟩
  have hperm : (BuildSimpleCodeListFreq l q n).Perm (BuildSimpleCodeList l q n) :=
    List.perm_insertionSort cfR _
  exact (hperm.map (fun cm => cm.code)).nodup_iff.mpr h1

/-- Witness for C10 at a concrete run. -/
theorem simple_codes_pairwise_distinct_witness :
    (∀ cm ∈ [(⟨['一'], [], ['a', 'b', 'z', 'w'], 10, true, false, none⟩ : CharMeta),
        ⟨['二'], [], ['a', 'b', 'c', 'd'], 5, true, false, none⟩], cm.code ≠ []) ∧
    ((BuildSimpleCodeList
        [⟨['一'], [], ['a', 'b', 'z', 'w'], 10, true, false, none⟩,
         ⟨['二'], [], ['a', 'b', 'c', 'd'], 5, true, false, none⟩]
        (fun nn => if nn = 2 then 1 else if nn = 3 then 5 else 0) []).map
      (fun cm => cm.code)).Nodup :=
  ⟨by decide,
    (simple_codes_pairwise_distinct
      [⟨['一'], [], ['a', 'b', 'z', 'w'], 10, true, false, none⟩,
       ⟨['二'], [], ['a', 'b', 'c', 'd'], 5, true, false, none⟩]
      (fun nn => if nn = 2 then 1 else if nn = 3 then 5 else 0) [] (by decide)).1⟩

/-- C9: every entry in the output of `BuildSimpleCodeList` (both revisions)
is a simplified record whose code differs from the full code of the source
character entry it was built from: a candidate equal to the full code is
discarded and produces no output entry. -/
theorem simple_codes_differ_from_full (l : List CharMeta) (q : Nat → Nat) (n : List Str)
    (h : ∀ cm ∈ l, cm.code ≠ []) :
    (∀ e ∈ BuildSimpleCodeList l q n,
      e.simp = true ∧ ∃ cm ∈ l, cm.char = e.char ∧ cm.freq = e.freq ∧ e.code ≠ cm.code) ∧
    (∀ e ∈ BuildSimpleCodeListFreq l q n,
      e.simp = true ∧ ∃ cm ∈ l, cm.char = e.char ∧ cm.freq = e.freq ∧ e.code ≠ cm.code) := by
  have hmain : ∀ e ∈ BuildSimpleCodeList l q n,
      e.simp = true ∧ ∃ cm ∈ l, cm.char = e.char ∧ cm.freq = e.freq ∧ e.code ≠ cm.code := by
    intro e he
    rcases simpleFold_mem (List.insertionSort sfR l) ([], []) e he with
      h1 | ⟨cm, hcm, cand, hcand, rfl⟩
    · simp at h1
    · exact ⟨rfl, cm, (List.perm_insertionSort sfR l).mem_iff.mp hcm, rfl, rfl, hcand⟩
  refine ⟨hmain, ?_⟩
  intro e he
  exact hmain e ((List.perm_insertionSort cfR _).mem_iff.mp he)

/-- Witness for C9 at a concrete run: the single input character with full
code `abzw` is simplified to `aw`, and the theorem applies to that output
entry. -/
theorem simple_codes_differ_from_full_witness :
    (⟨['一'], [], ['a', 'w'], 10, false, true, none⟩ : CharMeta) ∈
      BuildSimpleCodeList
        [(⟨['一'], [], ['a', 'b', 'z', 'w'], 10, true, false, none⟩ : CharMeta)]
        (fun nn => if nn = 1 then 4 else 0) [] ∧
    ((⟨['一'], [], ['a', 'w'], 10, false, true, none⟩ : CharMeta).simp = true ∧
      ∃ cm ∈ [(⟨['一'], [], ['a', 'b', 'z', 'w'], 10, true, false, none⟩ : CharMeta)],
        cm.char = (⟨['一'], [], ['a', 'w'], 10, false, true, none⟩ : CharMeta).char ∧
        cm.freq = (⟨['一'], [], ['a', 'w'], 10, false, true, none⟩ : CharMeta).freq ∧
        (⟨['一'], [], ['a', 'w'], 10, false, true, none⟩ : CharMeta).code ≠ cm.code) :=
  ⟨by decide,
    (simple_codes_differ_from_full
      [⟨['一'], [], ['a', 'b', 'z', 'w'], 10, true, false, none⟩]
      (fun nn => if nn = 1 then 4 else 0) [] (by decide)).1
      ⟨['一'], [], ['a', 'w'], 10, false, true, none⟩ (by decide)⟩

/-- C3 counterexample: with quotas `{2: 1, 3: 5}`, the character with full
code `"abzw"` claims `"abw"` (filling the (length 3, prefix "ab") bucket of
quota 1), and the character with full code `"abcd"` then claims `"abc"` via
prefix length 3 — its quota check looks only at the (length 3, prefix
"abc") bucket — so two length-3 entries share the 2-symbol prefix "ab",
exceeding quota[2] = 1. -/
theorem quota_bucket_counterexample :
    (fun nn => if nn = 2 then 1 else if nn = 3 then 5 else 0 : Nat → Nat) 2 = 1 ∧
    List.countP (fun res => res.code.length == 3 && List.isPrefixOf ['a', 'b'] res.code)
      (BuildSimpleCodeList
        [⟨['一'], [], ['a', 'b', 'z', 'w'], 10, true, false, none⟩,
         ⟨['二'], [], ['a', 'b', 'c', 'd'], 5, true, false, none⟩]
        (fun nn => if nn = 2 then 1 else if nn = 3 then 5 else 0) []) = 2 :=
  ⟨rfl, by decide⟩

/-- C3 amended: the word simplifier's per-(length, base-code) buckets never
exceed their quota.  For the single-character simplifier the bound holds
for the buckets actually checked on acceptance: length-2 codes sharing a
1-symbol prefix never exceed quota[1]; when quota[3] = 0, length-3 codes
sharing a 2-symbol prefix never exceed quota[2]; and buckets whose prefix
length equals the target length (prefix lengths ≥ 3) hold at most one
entry.  When both quota[2] and quota[3] are positive, a prefix-3 acceptance
can overfill an already-full (length-3, 2-prefix) bucket, as the
counterexample shows. -/
theorem quota_bucket_bounds_amended :
    (∀ (wordCodes : List WordCode) (q : Nat → Nat) (base : Str),
        (BuildWordsSimpleCode wordCodes q).countP (fun e => e.code == base) ≤ q base.length) ∧
    (∀ (l : List CharMeta) (q : Nat → Nat) (n : List Str), (∀ cm ∈ l, cm.code ≠ []) →
        (∀ c : Char, bucketCountP 2 [c] (BuildSimpleCodeList l q n) ≤ q 1) ∧
        (q 3 = 0 → ∀ pre : Str, pre.length = 2 →
            bucketCountP 3 pre (BuildSimpleCodeList l q n) ≤ q 2) ∧
        (∀ (tl : Nat) (pre : Str), pre.length = tl →
            bucketCountP tl pre (BuildSimpleCodeList l q n) ≤ 1)) := by
  constructor
  · exact wordsCore_count_le
  · intro l q n h
    have hinv := @simpleFold_inv q n (List.insertionSort sfR l) ([], [])
      (simpleInv_init q)
    exact ⟨hinv.2.2.1, hinv.2.2.2,
      fun tl pre hpre => bucketCountP_le_one_of_nodup hinv.1 hpre⟩

/-- Witness for the amended C3 at concrete runs. -/
theorem quota_bucket_bounds_amended_witness :
    (BuildWordsSimpleCode [⟨['好', '人'], ['a', 'b', 'c', 'd'], ['5']⟩] (fun _ => 2)).countP
        (fun e => e.code == ['a']) ≤ 2 ∧
    ∀ c : Char, bucketCountP 2 [c]
        (BuildSimpleCodeList [⟨['一'], [], ['a', 'b', 'z', 'w'], 10, true, false, none⟩]
          (fun nn => if nn = 1 then 4 else 0) []) ≤ 4 :=
  ⟨quota_bucket_bounds_amended.1 [⟨['好', '人'], ['a', 'b', 'c', 'd'], ['5']⟩] (fun _ => 2) ['a'],
    (quota_bucket_bounds_amended.2
      [⟨['一'], [], ['a', 'b', 'z', 'w'], 10, true, false, none⟩]
      (fun nn => if nn = 1 then 4 else 0) [] (by decide)).1⟩

/-! ### Candidate disambiguator (`AddCandidateCodes`, both revisions of
`citi_processor.go`) -/

/-- Merged dictionary entry (`CitiEntry`). -/
structure CitiEntry where
  text : Str
  code : Str
  freq : Int
  source : Str
deriving DecidableEq

/-- The fixed ten-symbol suffix alphabet. -/
def candidateSuffixes : List Str :=
  [['_'], ['e'], ['i'], ['['], ['2'], ['3'], ['7'], ['8'], ['9'], ['0']]

/-- Suffixed code for position `i` of a collision group, first revision:
the position-0 entry keeps the bare code exactly when it has length 4;
positions below ten get single-symbol suffixes; later positions get a run
of `=` page markers followed by the alphabet symbol at `(i-10) % 10`. -/
def candCode1 (code : Str) (i : Nat) : Str :=
  if i = 0 ∧ code.length = 4 then code
  else if i < 10 then code ++ candidateSuffixes.getD i []
  else code ++ List.replicate ((i - 10) / 10 + 1) '=' ++
    candidateSuffixes.getD ((i - 10) % 10) []

/-- Suffixed code for position `i`, second revision: no bare-code exception
for length-4 codes. -/
def candCode2 (code : Str) (i : Nat) : Str :=
  if i < 10 then code ++ candidateSuffixes.getD i []
  else code ++ List.replicate ((i - 10) / 10 + 1) '=' ++
    candidateSuffixes.getD ((i - 10) % 10) []

/-- Non-strict order guaranteed by the per-group `sort.Slice` comparator
(frequency descending): the comparator never holds backwards between ordered
elements.  `sort.Slice` is documented as not stable, so the relative order of
equal-frequency entries in its output is unspecified; the disambiguator model
below therefore takes the sort as a parameter (any function satisfying
`SortSpec`), and `List.insertionSort` is fixed only as one admissible instance
to keep the model executable. -/
def cqR (a b : Nat × CitiEntry) : Prop := intGt b.2.freq a.2.freq = false

instance : DecidableRel cqR :=
  fun a b => inferInstanceAs (Decidable (intGt b.2.freq a.2.freq = false))

instance : IsTrans (Nat × CitiEntry) cqR :=
  ⟨fun a b c h1 h2 => by
    unfold cqR intGt at h1 h2 ⊢
    simp only [decide_eq_false_iff_not, not_lt] at h1 h2 ⊢
    omega⟩

instance : IsTotal (Nat × CitiEntry) cqR :=
  ⟨fun a b => by
    unfold cqR intGt
    simp only [decide_eq_false_iff_not, not_lt]
    omega⟩

/-- The `codeGroups` bucket for code `c`: indexed entries carrying that
code, in original order (Go appends to the bucket while scanning). -/
def groupFor (entries : List CitiEntry) (c : Str) : List (Nat × CitiEntry) :=
  (entries.enum).filter fun ie => ie.2.code == c

/-- Write one sorted collision group into the result array (modelled as a
partial function from index), assigning suffixes by position. -/
def writeGroupEntries (mk : Str → Nat → Str) (code : Str) :
    List (Nat × CitiEntry) → Nat → (Nat → Option CitiEntry) → Nat → Option CitiEntry
  | [], _, f => f
  | ie :: rest, i, f =>
    writeGroupEntries mk code rest (i + 1)
      (fun j => if j = ie.1 then some ⟨ie.2.text, mk code i, ie.2.freq, ie.2.source⟩ else f j)

/-- Process one code's group: a singleton entry is written back unchanged; a
larger group is passed through the per-group sort and written back with
positional suffixes.  The sort is a parameter `sf` because Go's `sort.Slice`
fixes only the frequency order of its result, not the order of ties. -/
def writeGroupWith (sf : List (Nat × CitiEntry) → List (Nat × CitiEntry))
    (mk : Str → Nat → Str) (entries : List CitiEntry) (f : Nat → Option CitiEntry)
    (c : Str) : Nat → Option CitiEntry :=
  match groupFor entries c with
  | [ie] => fun j => if j = ie.1 then some ie.2 else f j
  | g => writeGroupEntries mk c (sf g) 0 f

/-- Core of both revisions of `AddCandidateCodes`, parametric in the group
sort: group by code, process each group writing results back by original
index, then collect the array in index order dropping unwritten cells.  The
Go map iterates its keys in unspecified order; the groups write disjoint index
sets, so the resulting array does not depend on that order, and one group per
distinct code is processed. -/
def disambigCoreWith (sf : List (Nat × CitiEntry) → List (Nat × CitiEntry))
    (mk : Str → Nat → Str) (entries : List CitiEntry) : List CitiEntry :=
  let codes := (entries.map fun e => e.code).dedup
  let result := codes.foldl (writeGroupWith sf mk entries) (fun _ => none)
  (List.range entries.length).filterMap result

/-- Admissible results of the per-group `sort.Slice`: any function returning a
frequency-descending permutation of its input.  Stability is deliberately not
required — Go's sort does not provide it. -/
def SortSpec (sf : List (Nat × CitiEntry) → List (Nat × CitiEntry)) : Prop :=
  ∀ g, (sf g).Perm g ∧ (sf g).Pairwise cqR

/-- Model of `AddCandidateCodes`, first revision (lines 260–328, with the
bare-code exception for length-4 codes at position 0), instantiated with
insertion sort — one admissible sort, fixed for concrete evaluation; the C7
theorem below quantifies over every sort satisfying `SortSpec`. -/
def AddCandidateCodes (entries : List CitiEntry) : List CitiEntry :=
  disambigCoreWith (List.insertionSort cqR) candCode1 entries

/-- Model of `AddCandidateCodes`, second revision (lines 941–1006): every
position gets a suffix; same fixed admissible sort. -/
def AddCandidateCodes2 (entries : List CitiEntry) : List CitiEntry :=
  disambigCoreWith (List.insertionSort cqR) candCode2 entries

theorem enumFrom_get? {α : Type} :
    ∀ (l : List α) (n k : Nat), (l.enumFrom n).get? k = (l.get? k).map (fun a => (n + k, a))
  | [], n, k => by simp [List.enumFrom]
  | a :: l, n, 0 => by simp [List.enumFrom]
  | a :: l, n, k + 1 => by
    have := enumFrom_get? l (n + 1) k
    simp only [List.enumFrom, List.get?, this]
    congr 1
    funext x
    congr 1
    omega

theorem mem_enum_get {α : Type} {l : List α} {p : Nat × α} (hp : p ∈ l.enum) :
    l.get? p.1 = some p.2 := by
  obtain ⟨k, hk⟩ := List.mem_iff_get?.mp hp
  rw [show l.enum = l.enumFrom 0 from rfl, enumFrom_get? l 0 k] at hk
  cases hg : l.get? k with
  | none => rw [hg] at hk; cases hk
  | some a =>
    rw [hg] at hk
    simp only [Option.map_some', Option.some.injEq] at hk
    subst hk
    simpa using hg

theorem enum_mem_of_get {α : Type} {l : List α} {j : Nat} {a : α} (h : l.get? j = some a) :
    (j, a) ∈ l.enum := by
  have : l.enum.get? j = some (j, a) := by
    rw [show l.enum = l.enumFrom 0 from rfl, enumFrom_get? l 0 j, h]
    simp
  exact List.get?_mem this

theorem enumFrom_map_fst {α : Type} :
    ∀ (l : List α) (n : Nat), (l.enumFrom n).map Prod.fst = List.range' n l.length
  | [], _ => rfl
  | a :: l, n => by
    simp only [List.enumFrom, List.map_cons, List.length_cons, List.range']
    rw [enumFrom_map_fst l (n + 1)]

theorem groupFor_fst_nodup (entries : List CitiEntry) (c : Str) :
    ((groupFor entries c).map Prod.fst).Nodup := by
  have h1 : (entries.enum.map Prod.fst).Nodup := by
    rw [show entries.enum = entries.enumFrom 0 from rfl, enumFrom_map_fst]
    exact List.nodup_range' _ _
  exact h1.sublist ((List.filter_sublist _).map Prod.fst)

theorem writeGroupEntries_untouched {mk : Str → Nat → Str} {c : Str} {j : Nat} :
    ∀ (l : List (Nat × CitiEntry)) (i : Nat) (f : Nat → Option CitiEntry),
    j ∉ l.map Prod.fst → writeGroupEntries mk c l i f j = f j
  | [], _, _, _ => rfl
  | ie :: rest, i, f, hj => by
    simp only [List.map_cons, List.mem_cons, not_or] at hj
    rw [writeGroupEntries, writeGroupEntries_untouched rest (i + 1) _ hj.2]
    rw [if_neg hj.1]

theorem writeGroupEntries_at {mk : Str → Nat → Str} {c : Str} {j : Nat} {e : CitiEntry} :
    ∀ (l : List (Nat × CitiEntry)) (k i : Nat) (f : Nat → Option CitiEntry),
    (l.map Prod.fst).Nodup → l.get? k = some (j, e) →
    writeGroupEntries mk c l i f j = some ⟨e.text, mk c (i + k), e.freq, e.source⟩
  | [], k, _, _, _, hk => by simp at hk
  | ie :: rest, 0, i, f, hnd, hk => by
    simp only [List.get?, Option.some.injEq] at hk
    subst hk
    simp only [List.map_cons, List.nodup_cons] at hnd
    rw [writeGroupEntries, writeGroupEntries_untouched rest (i + 1) _ hnd.1]
    simp
  | ie :: rest, k + 1, i, f, hnd, hk => by
    simp only [List.get?] at hk
    simp only [List.map_cons, List.nodup_cons] at hnd
    rw [writeGroupEntries, writeGroupEntries_at rest k (i + 1) _ hnd.2 hk]
    rw [show i + 1 + k = i + (k + 1) from by omega]

theorem groupFor_fst_code {entries : List CitiEntry} {c : Str} {p : Nat × CitiEntry}
    (hp : p ∈ groupFor entries c) : entries.get? p.1 = some p.2 ∧ p.2.code = c := by
  unfold groupFor at hp
  have h1 := List.of_mem_filter hp
  have h2 := List.mem_of_mem_filter hp
  simp only [beq_iff_eq] at h1
  exact ⟨mem_enum_get h2, h1⟩

theorem mem_groupFor {entries : List CitiEntry} {j : Nat} {e : CitiEntry}
    (hj : entries.get? j = some e) : (j, e) ∈ groupFor entries e.code := by
  unfold groupFor
  rw [List.mem_filter]
  exact ⟨enum_mem_of_get hj, by simp⟩

theorem writeGroup_untouched {sf : List (Nat × CitiEntry) → List (Nat × CitiEntry)}
    (hsf : ∀ g, (sf g).Perm g) {mk : Str → Nat → Str} {entries : List CitiEntry}
    {f : Nat → Option CitiEntry} {c : Str} {j : Nat} {e : CitiEntry}
    (hj : entries.get? j = some e) (hne : e.code ≠ c) :
    writeGroupWith sf mk entries f c j = f j := by
  have hnot : ∀ p ∈ groupFor entries c, p.1 ≠ j := by
    intro p hp hpj
    obtain ⟨hget, hcode⟩ := groupFor_fst_code hp
    rw [hpj, hj] at hget
    cases hget
    exact hne hcode
  rcases hg : groupFor entries c with _ | ⟨ie, _ | ⟨ie2, rest2⟩⟩
  · simp only [writeGroupWith, hg]
    rw [(hsf []).eq_nil]
    rfl
  · simp only [writeGroupWith, hg]
    have hne1 : ie.1 ≠ j := hnot ie (by rw [hg]; exact List.mem_singleton_self _)
    rw [if_neg (fun hh => hne1 hh.symm)]
  · simp only [writeGroupWith, hg]
    apply writeGroupEntries_untouched
    intro hmem
    obtain ⟨p, hp, hpj⟩ := List.mem_map.mp hmem
    have hp2 : p ∈ groupFor entries c := by
      rw [hg]
      exact (hsf _).mem_iff.mp hp
    exact hnot p hp2 hpj

theorem foldl_writeGroup_untouched {sf : List (Nat × CitiEntry) → List (Nat × CitiEntry)}
    (hsf : ∀ g, (sf g).Perm g) {mk : Str → Nat → Str} {entries : List CitiEntry}
    {j : Nat} {e : CitiEntry} (hj : entries.get? j = some e) :
    ∀ (codes : List Str) (f : Nat → Option CitiEntry), e.code ∉ codes →
    codes.foldl (writeGroupWith sf mk entries) f j = f j
  | [], _, _ => rfl
  | c :: codes, f, hnc => by
    simp only [List.mem_cons, not_or] at hnc
    rw [List.foldl_cons, foldl_writeGroup_untouched hsf hj codes _ hnc.2,
      writeGroup_untouched hsf hj hnc.1]

theorem foldl_writeGroup_covered {sf : List (Nat × CitiEntry) → List (Nat × CitiEntry)}
    (hsf : ∀ g, (sf g).Perm g) {mk : Str → Nat → Str} {entries : List CitiEntry}
    {j : Nat} {e : CitiEntry} (hj : entries.get? j = some e) :
    ∀ (codes : List Str) (f : Nat → Option CitiEntry), codes.Nodup → e.code ∈ codes →
    ∃ f', codes.foldl (writeGroupWith sf mk entries) f j
      = writeGroupWith sf mk entries f' e.code j
  | [], _, _, hmem => by simp at hmem
  | c :: codes, f, hnd, hmem => by
    simp only [List.nodup_cons] at hnd
    by_cases hc : c = e.code
    · subst hc
      refine ⟨f, ?_⟩
      rw [List.foldl_cons, foldl_writeGroup_untouched hsf hj codes _ hnd.1]
    · have hmem2 : e.code ∈ codes := by
        rcases List.mem_cons.mp hmem with h | h
        · exact absurd h.symm hc
        · exact h
      obtain ⟨f', hf'⟩ := foldl_writeGroup_covered hsf hj codes
        (writeGroupWith sf mk entries f c) hnd.2 hmem2
      exact ⟨f', by rw [List.foldl_cons, hf']⟩

theorem filterMap_eq_map_getD {α β : Type} (d : β) :
    ∀ (l : List α) (R : α → Option β), (∀ j ∈ l, (R j).isSome) →
    l.filterMap R = l.map fun j => (R j).getD d
  | [], _, _ => rfl
  | a :: l, R, hall => by
    obtain ⟨v, hv⟩ := Option.isSome_iff_exists.mp (hall a (List.mem_cons_self _ _))
    rw [List.filterMap_cons, List.map_cons, hv,
      filterMap_eq_map_getD d l R (fun j hj => hall j (List.mem_cons_of_mem _ hj))]
    simp [hv]

theorem lt_length_of_get? {α : Type} {l : List α} {j : Nat} {a : α}
    (h : l.get? j = some a) : j < l.length := by
  by_contra hc
  rw [List.get?_eq_none.mpr (Nat.le_of_not_lt hc)] at h
  cases h

theorem writeGroup_value_singleton {sf : List (Nat × CitiEntry) → List (Nat × CitiEntry)}
    {mk : Str → Nat → Str} {entries : List CitiEntry}
    {f : Nat → Option CitiEntry} {j : Nat} {e : CitiEntry}
    (hg : groupFor entries e.code = [(j, e)]) :
    writeGroupWith sf mk entries f e.code j = some e := by
  simp [writeGroupWith, hg]

theorem writeGroup_value_group {sf : List (Nat × CitiEntry) → List (Nat × CitiEntry)}
    (hsf : ∀ g, (sf g).Perm g) {mk : Str → Nat → Str} {entries : List CitiEntry}
    {f : Nat → Option CitiEntry} {j k : Nat} {e : CitiEntry}
    (h2 : 2 ≤ (groupFor entries e.code).length)
    (hk : (sf (groupFor entries e.code)).get? k = some (j, e)) :
    writeGroupWith sf mk entries f e.code j
      = some ⟨e.text, mk e.code k, e.freq, e.source⟩ := by
  have hnd : ((sf (groupFor entries e.code)).map Prod.fst).Nodup :=
    (((hsf _).map Prod.fst).nodup_iff).mpr (groupFor_fst_nodup entries e.code)
  have hval := @writeGroupEntries_at mk e.code j e
    (sf (groupFor entries e.code)) k 0 f hnd hk
  rw [show (0 : Nat) + k = k from by omega] at hval
  rcases hg : groupFor entries e.code with _ | ⟨ie, _ | ⟨ie2, rest⟩⟩
  · rw [hg] at h2
    simp at h2
  · rw [hg] at h2
    simp at h2
  · simp only [writeGroupWith, hg]
    rw [hg] at hval
    exact hval

theorem fold_result_covered {sf : List (Nat × CitiEntry) → List (Nat × CitiEntry)}
    (hsf : ∀ g, (sf g).Perm g) {mk : Str → Nat → Str} {entries : List CitiEntry} {j : Nat}
    {e : CitiEntry} (hj : entries.get? j = some e) :
    ∃ f', ((entries.map fun x => x.code).dedup.foldl (writeGroupWith sf mk entries)
        (fun _ => none)) j = writeGroupWith sf mk entries f' e.code j ∧
      (writeGroupWith sf mk entries f' e.code j).isSome := by
  have hcode : e.code ∈ (entries.map fun x => x.code).dedup :=
    List.mem_dedup.mpr (List.mem_map.mpr ⟨e, List.get?_mem hj, rfl⟩)
  obtain ⟨f', hf'⟩ := foldl_writeGroup_covered hsf hj _ (fun _ => none)
    (List.nodup_dedup _) hcode
  have hmem := mem_groupFor hj
  refine ⟨f', hf', ?_⟩
  rcases hg : groupFor entries e.code with _ | ⟨ie, _ | ⟨ie2, rest⟩⟩
  · rw [hg] at hmem
    simp at hmem
  · rw [hg] at hmem
    simp only [List.mem_singleton] at hmem
    rw [writeGroup_value_singleton (hmem ▸ hg)]
    rfl
  · have h2 : 2 ≤ (groupFor entries e.code).length := by
      rw [hg]
      simp only [List.length_cons]
      omega
    have hmem2 : (j, e) ∈ sf (groupFor entries e.code) :=
      (hsf _).mem_iff.mpr hmem
    obtain ⟨k, hk⟩ := List.mem_iff_get?.mp hmem2
    rw [writeGroup_value_group hsf h2 hk]
    rfl

theorem fold_result_all_some (sf : List (Nat × CitiEntry) → List (Nat × CitiEntry))
    (hsf : ∀ g, (sf g).Perm g) (mk : Str → Nat → Str) (entries : List CitiEntry) :
    ∀ i ∈ List.range entries.length,
      (((entries.map fun x => x.code).dedup.foldl (writeGroupWith sf mk entries)
        (fun _ => none)) i).isSome := by
  intro i hi
  rw [List.mem_range] at hi
  have hgi : entries.get? i = some (entries.get ⟨i, hi⟩) := List.get?_eq_get hi
  obtain ⟨f', hf', hsome⟩ := fold_result_covered hsf hgi
  rw [hf']
  exact hsome

theorem disambigCoreWith_lookup {sf : List (Nat × CitiEntry) → List (Nat × CitiEntry)}
    (hsf : ∀ g, (sf g).Perm g) {mk : Str → Nat → Str} {entries : List CitiEntry} {j : Nat}
    {e : CitiEntry} (hj : entries.get? j = some e) :
    ∃ f', (disambigCoreWith sf mk entries).get? j
      = writeGroupWith sf mk entries f' e.code j := by
  obtain ⟨f', hf', hsome⟩ := fold_result_covered hsf hj
  refine ⟨f', ?_⟩
  have hjl : j < entries.length := lt_length_of_get? hj
  rw [show disambigCoreWith sf mk entries = (List.range entries.length).filterMap
      ((entries.map fun x => x.code).dedup.foldl (writeGroupWith sf mk entries)
        (fun _ => none)) from rfl]
  rw [filterMap_eq_map_getD ⟨[], [], 0, []⟩ _ _ (fold_result_all_some sf hsf mk entries),
    List.get?_map, List.get?_range hjl]
  simp only [Option.map_some']
  obtain ⟨v, hv⟩ := Option.isSome_iff_exists.mp hsome
  rw [hf', hv]
  simp

theorem disambigCoreWith_len (sf : List (Nat × CitiEntry) → List (Nat × CitiEntry))
    (hsf : ∀ g, (sf g).Perm g) (mk : Str → Nat → Str) (entries : List CitiEntry) :
    (disambigCoreWith sf mk entries).length = entries.length := by
  rw [show disambigCoreWith sf mk entries = (List.range entries.length).filterMap
      ((entries.map fun x => x.code).dedup.foldl (writeGroupWith sf mk entries)
        (fun _ => none)) from rfl]
  rw [filterMap_eq_map_getD ⟨[], [], 0, []⟩ _ _ (fold_result_all_some sf hsf mk entries),
    List.length_map, List.length_range]

/-- **C7 counterexample.** The claim's position-0 rule (the top entry of a
collision group keeps its bare code exactly when the code has length 4) fails
for the second revision of `AddCandidateCodes` (lines 941–1006 of
`citi_processor.go`): with two entries sharing the length-4 code `abcd`, the
higher-frequency entry sits at position 0 of the sorted group, yet its output
code is `abcd_` (first suffix appended), not the bare `abcd`. -/
theorem add_candidate_codes_bare_code_counterexample :
    (List.insertionSort cqR (groupFor
        [⟨['甲'], ['a', 'b', 'c', 'd'], 2, []⟩, ⟨['乙'], ['a', 'b', 'c', 'd'], 1, []⟩]
        ['a', 'b', 'c', 'd'])).get? 0 =
      some (0, ⟨['甲'], ['a', 'b', 'c', 'd'], 2, []⟩) ∧
    (AddCandidateCodes2
        [⟨['甲'], ['a', 'b', 'c', 'd'], 2, []⟩,
         ⟨['乙'], ['a', 'b', 'c', 'd'], 1, []⟩]).get? 0 =
      some ⟨['甲'], ['a', 'b', 'c', 'd', '_'], 2, []⟩ ∧
    (AddCandidateCodes2
        [⟨['甲'], ['a', 'b', 'c', 'd'], 2, []⟩,
         ⟨['乙'], ['a', 'b', 'c', 'd'], 1, []⟩]).get? 0 ≠
      some ⟨['甲'], ['a', 'b', 'c', 'd'], 2, []⟩ := by
  refine ⟨by decide, by decide, by decide⟩

/-- **C7** (amended). For **every** admissible result of the per-group
`sort.Slice` — any function `sf` returning a frequency-descending permutation
of each group; Go's sort is not stable, so the order of equal-frequency
entries is unspecified and nothing below assumes it — both revisions of
`AddCandidateCodes` behave as follows.  A singleton group is written back
untouched.  In a group of two or more, the entry at position `k` of the order
the sort actually produced receives the suffixed code for position `k`:
single symbols from the fixed ten-symbol alphabet for `k < 10`, and a run of
`=` page markers followed by the symbol at `(k-10) % 10` beyond — except that
the bare-code rule for position 0 holds only in the first revision
(`candCode1` keeps a length-4 code bare at position 0; `candCode2` always
appends the first suffix).  Both revisions preserve the number of entries. -/
theorem add_candidate_codes_positions
    (sf : List (Nat × CitiEntry) → List (Nat × CitiEntry)) (hsf : SortSpec sf)
    (entries : List CitiEntry) (j : Nat)
    (e : CitiEntry) (hj : entries.get? j = some e) :
    (disambigCoreWith sf candCode1 entries).length = entries.length ∧
    (disambigCoreWith sf candCode2 entries).length = entries.length ∧
    ((groupFor entries e.code).length = 1 →
      (disambigCoreWith sf candCode1 entries).get? j = some e ∧
      (disambigCoreWith sf candCode2 entries).get? j = some e) ∧
    (∀ k : Nat, 2 ≤ (groupFor entries e.code).length →
      (sf (groupFor entries e.code)).get? k = some (j, e) →
      (disambigCoreWith sf candCode1 entries).get? j =
        some ⟨e.text, candCode1 e.code k, e.freq, e.source⟩ ∧
      (disambigCoreWith sf candCode2 entries).get? j =
        some ⟨e.text, candCode2 e.code k, e.freq, e.source⟩) := by
  have hperm : ∀ g, (sf g).Perm g := fun g => (hsf g).1
  refine ⟨disambigCoreWith_len sf hperm _ _, disambigCoreWith_len sf hperm _ _, ?_, ?_⟩
  · intro h1
    have hmem := mem_groupFor hj
    have hg : groupFor entries e.code = [(j, e)] := by
      rcases hgg : groupFor entries e.code with _ | ⟨ie, rest⟩
      · rw [hgg] at hmem
        simp at hmem
      · have hr : rest = [] := by
          rw [hgg] at h1
          simp only [List.length_cons] at h1
          exact List.length_eq_zero.mp (by omega)
        subst hr
        rw [hgg] at hmem
        simp only [List.mem_singleton] at hmem
        rw [← hmem]
    constructor
    · obtain ⟨f', hf'⟩ := @disambigCoreWith_lookup sf hperm candCode1 entries j e hj
      rw [hf', writeGroup_value_singleton hg]
    · obtain ⟨f', hf'⟩ := @disambigCoreWith_lookup sf hperm candCode2 entries j e hj
      rw [hf', writeGroup_value_singleton hg]
  · intro k h2 hk
    constructor
    · obtain ⟨f', hf'⟩ := @disambigCoreWith_lookup sf hperm candCode1 entries j e hj
      rw [hf', writeGroup_value_group hperm h2 hk]
    · obtain ⟨f', hf'⟩ := @disambigCoreWith_lookup sf hperm candCode2 entries j e hj
      rw [hf', writeGroup_value_group hperm h2 hk]

/-- Witness for the amended C7 theorem, instantiating the sort parameter with
insertion sort (an admissible sort): three concrete entries, of which the
first two collide on code `ab` (frequencies 30 and 10 — no ties, so every
admissible sort produces this same order) and the third is a singleton; the
lower-frequency one sits at position 1 and gets suffix `e`, the singleton is
untouched. -/
theorem add_candidate_codes_positions_witness :
    (AddCandidateCodes [⟨['一'], ['a', 'b'], 30, []⟩, ⟨['二'], ['a', 'b'], 10, []⟩,
        ⟨['三'], ['x'], 5, []⟩]).get? 1 = some ⟨['二'], ['a', 'b', 'e'], 10, []⟩ ∧
    (AddCandidateCodes2 [⟨['一'], ['a', 'b'], 30, []⟩, ⟨['二'], ['a', 'b'], 10, []⟩,
        ⟨['三'], ['x'], 5, []⟩]).get? 2 = some ⟨['三'], ['x'], 5, []⟩ := by
  constructor
  · have h := ((add_candidate_codes_positions (List.insertionSort cqR)
      (fun g => ⟨List.perm_insertionSort cqR g, List.sorted_insertionSort cqR g⟩)
      [⟨['一'], ['a', 'b'], 30, []⟩, ⟨['二'], ['a', 'b'], 10, []⟩, ⟨['三'], ['x'], 5, []⟩]
      1 ⟨['二'], ['a', 'b'], 10, []⟩ rfl).2.2.2 1 (by decide) (by decide)).1
    rw [show AddCandidateCodes [⟨['一'], ['a', 'b'], 30, []⟩, ⟨['二'], ['a', 'b'], 10, []⟩,
        ⟨['三'], ['x'], 5, []⟩] = disambigCoreWith (List.insertionSort cqR) candCode1
        [⟨['一'], ['a', 'b'], 30, []⟩, ⟨['二'], ['a', 'b'], 10, []⟩, ⟨['三'], ['x'], 5, []⟩]
      from rfl, h]
    rfl
  · have h := ((add_candidate_codes_positions (List.insertionSort cqR)
      (fun g => ⟨List.perm_insertionSort cqR g, List.sorted_insertionSort cqR g⟩)
      [⟨['一'], ['a', 'b'], 30, []⟩, ⟨['二'], ['a', 'b'], 10, []⟩, ⟨['三'], ['x'], 5, []⟩]
      2 ⟨['三'], ['x'], 5, []⟩ rfl).2.2.1 (by decide)).2
    exact h

/-! ### Word-simplifier placeholder back-fill (part_000 revision:
`SortWordSimpleCodes`, `addPlaceholdersAfterSort`, `appendGroupPlaceholders`,
`addAllPossiblePlaceholders`, `generatePlaceholders`, `generateAllBaseCodes`,
`isPlaceholder`, `getPlaceholderIndex`, `getPlaceholderWeight`) -/

/-- UTF-8 encoding of one rune, byte values as naturals.  Go strings are byte
strings; `len(word)` and `word[0]` in `isPlaceholder` operate on bytes, so the
byte layer must be modelled to capture that function faithfully. -/
def utf8Bytes (c : Char) : List Nat :=
  let n := c.toNat
  if n < 128 then [n]
  else if n < 2048 then [192 + n / 64, 128 + n % 64]
  else if n < 65536 then [224 + n / 4096, 128 + n / 64 % 64, 128 + n % 64]
  else [240 + n / 262144, 128 + n / 4096 % 64, 128 + n / 64 % 64, 128 + n % 64]

/-- The byte string underlying a Go string. -/
def goBytes (s : Str) : List Nat := s.flatMap utf8Bytes

/-- Model of `isPlaceholder`: Go tests `len(word) == 1` (one **byte**) and then
compares `rune(word[0])` (that byte) against `'①'`..`'⑩'` (U+2460..U+2469).
Since a single byte is below 256 it can never reach U+2460, so the function is
constantly false (the placeholder tokens themselves are three bytes long). -/
def isPlaceholder (word : Str) : Bool :=
  match goBytes word with
  | [b] => decide (9312 ≤ b) && decide (b ≤ 9321)
  | _ => false

/-- Model of `getPlaceholderIndex`: zero for non-placeholders, else the
byte-rune offset from `'①'` plus one. -/
def getPlaceholderIndex (word : Str) : Int :=
  if isPlaceholder word then ((goBytes word).headD 0 : Int) - 9312 + 1 else 0

/-- Model of `getPlaceholderWeight`: the hard-coded weight map over the ten
circled tokens, defaulting to `-0`. -/
def getPlaceholderWeight (word : Str) : Str :=
  if word = ['①'] then ['-', '1']
  else if word = ['②'] then ['-', '2']
  else if word = ['③'] then ['-', '3']
  else if word = ['④'] then ['-', '4']
  else if word = ['⑤'] then ['-', '5']
  else if word = ['⑥'] then ['-', '6']
  else if word = ['⑦'] then ['-', '7']
  else if word = ['⑧'] then ['-', '8']
  else if word = ['⑨'] then ['-', '9']
  else if word = ['⑩'] then ['-', '1', '0']
  else ['-', '0']

/-- Comparator of `SortWordSimpleCodes`: code ascending, then placeholders
after real words, placeholders by index, real words by weight descending then
word ascending. -/
def wscLess (a b : WordSimpleCode) : Bool :=
  if a.code ≠ b.code then strLt a.code b.code
  else if (isPlaceholder a.word) ≠ (isPlaceholder b.word) then !(isPlaceholder a.word)
  else if isPlaceholder a.word && isPlaceholder b.word then
    decide (getPlaceholderIndex a.word < getPlaceholderIndex b.word)
  else if parseWeight a.weight ≠ parseWeight b.weight then
    intGt (parseWeight a.weight) (parseWeight b.weight)
  else strLt a.word b.word

/-- Sort key realised by `wscLess` (the placeholder branches are dead because
`isPlaceholder` is constantly false). -/
def wscKey (a : WordSimpleCode) : Str × Int × Str := (a.code, parseWeight a.weight, a.word)

/-- Sortedness relation realised by `sort.Slice` with `wscLess`. -/
def wscR (a b : WordSimpleCode) : Prop := wscLess b a = false

instance : DecidableRel wscR := fun a b => inferInstanceAs (Decidable (wscLess b a = false))

/-- Model of `SortWordSimpleCodes`. -/
def SortWordSimpleCodes (l : List WordSimpleCode) : List WordSimpleCode :=
  List.insertionSort wscR l

/-- The ten circled placeholder tokens. -/
def circledPlaceholders : List Str :=
  [['①'], ['②'], ['③'], ['④'], ['⑤'], ['⑥'], ['⑦'], ['⑧'], ['⑨'], ['⑩']]

/-- Model of `generatePlaceholders(startIndex, count, maxLimit)`: circled
tokens for limits up to ten, `(n)` tokens beyond, sliced from `startIndex`
(1-based) with the count clamped to the available tail. -/
def generatePlaceholders (startIndex count maxLimit : Nat) : List Str :=
  if count = 0 ∨ maxLimit < startIndex then []
  else
    let placeholders :=
      if 1 ≤ maxLimit ∧ maxLimit ≤ 10 then circledPlaceholders.take maxLimit
      else (List.range maxLimit).map fun i => '(' :: (Nat.toDigits 10 (i + 1) ++ [')'])
    if placeholders.length < startIndex then []
    else (placeholders.drop (startIndex - 1)).take (min count (placeholders.length - startIndex + 1))

/-- The fixed 24-key alphabet of `generateAllBaseCodes`. -/
def simpleKeys : List Str :=
  [['q'], ['t'], ['y'], ['p'], ['a'], ['s'], ['d'], ['f'], ['g'], ['h'], ['j'], ['k'],
   ['l'], [';'], ['z'], ['x'], ['c'], ['v'], ['b'], ['n'], ['m'], [','], ['.'], ['/']]

/-- Model of `generateAllBaseCodes`: every key string, pair, or triple, in
first-major order; empty for any other length. -/
def generateAllBaseCodes : Nat → List Str
  | 1 => simpleKeys
  | 2 => simpleKeys.flatMap fun f => simpleKeys.map fun s => f ++ s
  | 3 => simpleKeys.flatMap fun f => simpleKeys.flatMap fun s =>
      simpleKeys.map fun t => f ++ s ++ t
  | _ => []

/-- Placeholder entries appended after one code group by
`appendGroupPlaceholders`: nothing when the group's length quota is zero or
the group is already full, else placeholders from index `len(group)+1` up to
the quota, carrying the group's code and the hard-coded weights. -/
def groupPlaceholderEntries (q : Nat → Nat) : List WordSimpleCode → List WordSimpleCode
  | [] => []
  | g0 :: gs =>
    let limit := q g0.code.length
    if limit = 0 then []
    else if (g0 :: gs).length < limit then
      (generatePlaceholders ((g0 :: gs).length + 1) (limit - (g0 :: gs).length) limit).map
        fun ph => ⟨ph, g0.code, getPlaceholderWeight ph⟩
    else []

/-- Maximal adjacent runs of equal codes: the grouping realised by the
`currentGroup`/`currentCode` loop of `addPlaceholdersAfterSort`. -/
def groupRuns : List WordSimpleCode → List (List WordSimpleCode)
  | [] => []
  | x :: xs =>
    (x :: xs.takeWhile fun y => y.code == x.code) ::
      groupRuns (xs.dropWhile fun y => y.code == x.code)
termination_by l => l.length
decreasing_by
  simp only [List.length_cons]
  exact Nat.lt_succ_of_le (List.dropWhile_suffix _).sublist.length_le

/-- Model of `addAllPossiblePlaceholders`: for every quota-positive length and
every possible base code with no "actual" entry (per `isPlaceholder`, which is
constantly false, so any entry counts), append a full quota of placeholders. -/
def addAllPossiblePlaceholders (l : List WordSimpleCode) (q : Nat → Nat) :
    List WordSimpleCode :=
  l ++ ([1, 2, 3].flatMap fun codeLength =>
    if q codeLength = 0 then []
    else (generateAllBaseCodes codeLength).flatMap fun baseCode =>
      if l.any (fun item => item.code == baseCode && !(isPlaceholder item.word)) then []
      else (generatePlaceholders 1 (q codeLength) (q codeLength)).map
        fun ph => ⟨ph, baseCode, getPlaceholderWeight ph⟩)

/-- Model of `addPlaceholdersAfterSort`: flush each adjacent equal-code group
followed by its padding placeholders, then back-fill all unoccupied base
codes. -/
def addPlaceholdersAfterSort (l : List WordSimpleCode) (q : Nat → Nat) :
    List WordSimpleCode :=
  addAllPossiblePlaceholders
    ((groupRuns l).flatMap fun g => g ++ groupPlaceholderEntries q g) q

/-- Model of the part_000 revision of `BuildWordsSimpleCode`: the shared
allocation core, then `SortWordSimpleCodes`, then the placeholder back-fill. -/
def BuildWordsSimpleCodeFull (wordCodes : List WordCode) (q : Nat → Nat) :
    List WordSimpleCode :=
  addPlaceholdersAfterSort (SortWordSimpleCodes (BuildWordsSimpleCode wordCodes q)) q

theorem char_toNat_lt (c : Char) : c.toNat < 1114112 := by
  have h : c.val.toNat.isValidChar := c.valid
  rcases h with h | ⟨h1, h2⟩
  · exact Nat.lt_of_lt_of_le h (by omega)
  · exact h2

theorem utf8Bytes_lt (c : Char) : ∀ b ∈ utf8Bytes c, b < 9312 := by
  have hc := char_toNat_lt c
  intro b hb
  simp only [utf8Bytes] at hb
  split at hb
  · simp only [List.mem_singleton] at hb
    omega
  · split at hb
    · simp only [List.mem_cons, List.not_mem_nil, or_false] at hb
      rcases hb with rfl | rfl <;> omega
    · split at hb
      · simp only [List.mem_cons, List.not_mem_nil, or_false] at hb
        rcases hb with rfl | rfl | rfl <;> omega
      · simp only [List.mem_cons, List.not_mem_nil, or_false] at hb
        rcases hb with rfl | rfl | rfl | rfl <;> omega

/-- The byte-length check of `isPlaceholder` can never see a circled numeral:
the function is constantly false. -/
theorem isPlaceholder_false (w : Str) : isPlaceholder w = false := by
  unfold isPlaceholder
  split
  · rename_i b heq
    have hb : b ∈ goBytes w := by
      rw [heq]
      exact List.mem_singleton_self b
    rw [goBytes, List.mem_flatMap] at hb
    obtain ⟨c, -, hbc⟩ := hb
    have hlt := utf8Bytes_lt c b hbc
    simp only [Bool.and_eq_false_iff, decide_eq_false_iff_not]
    left
    omega
  · rfl

theorem wscLess_eq_key (a b : WordSimpleCode) :
    wscLess a b = cmKeyLt (wscKey a) (wscKey b) := by
  simp [wscLess, cmKeyLt, pairLt, wscKey, isPlaceholder_false]

instance : IsTrans WordSimpleCode wscR :=
  ⟨fun a b c h1 h2 => by
    have h1' : cmKeyLt (wscKey b) (wscKey a) = false := by rw [← wscLess_eq_key]; exact h1
    have h2' : cmKeyLt (wscKey c) (wscKey b) = false := by rw [← wscLess_eq_key]; exact h2
    show wscLess c a = false
    rw [wscLess_eq_key]
    exact @notLt_trans _ cmKeyLt (fun _ _ _ h1 h2 => cmKeyLt_trans h1 h2)
      (fun _ _ h1 h2 => cmKeyLt_connex h1 h2) (wscKey c) (wscKey b) (wscKey a) h2' h1'⟩

instance : IsTotal WordSimpleCode wscR :=
  ⟨fun a b => by
    rcases @notLt_total _ cmKeyLt (fun _ _ h => cmKeyLt_asymm h) (wscKey b) (wscKey a) with h | h
    · exact Or.inl (by show wscLess b a = false; rw [wscLess_eq_key]; exact h)
    · exact Or.inr (by show wscLess a b = false; rw [wscLess_eq_key]; exact h)⟩

/-- Weak order on codes induced by the sort: earlier entries never have
strictly larger codes. -/
def codeLe (a b : WordSimpleCode) : Prop := strLt b.code a.code = false

theorem wscR_codeLe {a b : WordSimpleCode} (h : wscR a b) : codeLe a b := by
  unfold wscR wscLess at h
  unfold codeLe
  by_cases hc : b.code = a.code
  · rw [hc]
    exact strLt_irrefl _
  · rw [if_pos hc] at h
    exact h

theorem dropWhile_head_false {α : Type} {p : α → Bool} :
    ∀ (l : List α) {y : α} {t : List α}, l.dropWhile p = y :: t → p y = false
  | [], _, _, h => by cases h
  | a :: l, y, t, h => by
    rw [List.dropWhile_cons] at h
    split at h
    · exact dropWhile_head_false l h
    · rename_i hpa
      injection h with h1 h2
      subst h1
      simpa using hpa

theorem countP_flatMap {α β : Type} (p : β → Bool) :
    ∀ (l : List α) (f : α → List β),
    (l.flatMap f).countP p = (l.map fun a => (f a).countP p).sum
  | [], _ => rfl
  | a :: l, f => by
    rw [List.flatMap_cons, List.countP_append, List.map_cons, List.sum_cons,
      countP_flatMap p l f]

theorem generatePlaceholders_length {s m : Nat} (hs : 1 ≤ s) (hsm : s ≤ m) :
    (generatePlaceholders s (m - s + 1) m).length = m - s + 1 := by
  unfold generatePlaceholders
  have hc1 : ¬ (m - s + 1 = 0 ∨ m < s) := by
    rintro (h | h) <;> omega
  rw [if_neg hc1]
  simp only []
  have hlen : (if 1 ≤ m ∧ m ≤ 10 then circledPlaceholders.take m
      else (List.range m).map fun i => '(' :: (Nat.toDigits 10 (i + 1) ++ [')'])).length = m := by
    split
    · rename_i h
      rw [List.length_take]
      have h10 : circledPlaceholders.length = 10 := rfl
      rw [h10]
      omega
    · rw [List.length_map, List.length_range]
  rw [if_neg (by omega : ¬ (if 1 ≤ m ∧ m ≤ 10 then circledPlaceholders.take m
      else (List.range m).map fun i => '(' :: (Nat.toDigits 10 (i + 1) ++ [')'])).length < s)]
  rw [List.length_take, List.length_drop, hlen]
  omega

theorem simpleKeys_len : ∀ s ∈ simpleKeys, s.length = 1 := by decide

theorem simpleKeys_nodup : simpleKeys.Nodup := by decide

/-- Occurrence counter for code strings, fixed to propositional equality to
keep one uniform instance throughout. -/
def cntS (b : Str) (l : List Str) : Nat := l.countP fun x => decide (x = b)

theorem cntS_nil (b : Str) : cntS b [] = 0 := rfl

theorem cntS_cons (b a : Str) (l : List Str) :
    cntS b (a :: l) = cntS b l + if a = b then 1 else 0 := by
  rw [cntS, List.countP_cons, cntS]
  by_cases h : a = b
  · rw [if_pos h, if_pos (by simpa using h)]
  · rw [if_neg h, if_neg (by simpa using h)]

theorem cntS_append (b : Str) (l1 l2 : List Str) :
    cntS b (l1 ++ l2) = cntS b l1 + cntS b l2 := by
  rw [cntS, List.countP_append, cntS, cntS]

theorem not_mem_of_cntS_zero {b : Str} {l : List Str} (h : cntS b l = 0) : b ∉ l := by
  intro hb
  rw [cntS, List.countP_eq_zero] at h
  simpa using h b hb

theorem cntS_eq_one_of_nodup {b : Str} : ∀ {l : List Str}, l.Nodup → b ∈ l → cntS b l = 1 := by
  intro l
  induction l with
  | nil => intro _ hb; simp at hb
  | cons a l ih =>
    intro hnd hb
    rw [List.nodup_cons] at hnd
    rw [cntS_cons]
    rcases List.mem_cons.mp hb with rfl | hb2
    · rw [if_pos rfl]
      have h0 : cntS b l = 0 := by
        rw [cntS, List.countP_eq_zero]
        intro x hx
        simp only [decide_eq_true_eq]
        intro hxb
        exact hnd.1 (hxb ▸ hx)
      rw [h0]
    · have hab : a ≠ b := fun hh => hnd.1 (hh ▸ hb2)
      rw [if_neg hab, ih hnd.2 hb2]

theorem sum_map_eq_single {l : List Str} {f : Str → Nat} {b : Str}
    (hcount : cntS b l = 1) (hz : ∀ x ∈ l, x ≠ b → f x = 0) :
    (l.map f).sum = f b := by
  induction l with
  | nil => simp [cntS] at hcount
  | cons a l ih =>
    rw [List.map_cons, List.sum_cons]
    rw [cntS_cons] at hcount
    by_cases hab : a = b
    · subst hab
      rw [if_pos rfl] at hcount
      have hl0 : a ∉ l := not_mem_of_cntS_zero (by omega)
      have hsum0 : (l.map f).sum = 0 := by
        apply List.sum_eq_zero
        intro v hv
        rw [List.mem_map] at hv
        obtain ⟨x, hx, rfl⟩ := hv
        by_cases hxa : x = a
        · exact absurd (hxa ▸ hx) hl0
        · exact hz x (List.mem_cons_of_mem _ hx) hxa
      rw [hsum0]
      omega
    · rw [if_neg hab] at hcount
      rw [hz a (List.mem_cons_self _ _) hab, ih (by omega)
        (fun x hx hxb => hz x (List.mem_cons_of_mem _ hx) hxb), Nat.zero_add]

theorem cntS_map_prepend (f : Str) (hf : f.length = 1) {b : Str} (hb : 1 ≤ b.length) :
    ∀ tails : List Str,
    cntS b (tails.map fun s => f ++ s) = if f = b.take 1 then cntS (b.drop 1) tails else 0
  | [] => by simp [cntS]
  | s :: tails => by
    rw [List.map_cons, cntS_cons, cntS_map_prepend f hf hb tails, cntS_cons]
    have hiff : (f ++ s = b) ↔ (f = b.take 1 ∧ s = b.drop 1) := by
      constructor
      · intro hh
        subst hh
        exact ⟨(List.take_left' hf).symm, (List.drop_left' hf).symm⟩
      · rintro ⟨h1, h2⟩
        conv_rhs => rw [← List.take_append_drop 1 b]
        rw [← h1, ← h2]
    by_cases hfb : f = b.take 1
    · rw [if_pos hfb, if_pos hfb]
      by_cases hds : s = b.drop 1
      · rw [if_pos hds, if_pos (hiff.mpr ⟨hfb, hds⟩)]
      · rw [if_neg hds, if_neg (fun hh => hds (hiff.mp hh).2)]
    · rw [if_neg hfb, if_neg hfb, if_neg (fun hh => hfb (hiff.mp hh).1), Nat.add_zero]

theorem cntS_flatMap_prepend {b : Str} (hb : 1 ≤ b.length) (tails : List Str) :
    ∀ keys : List Str, (∀ s ∈ keys, s.length = 1) →
    cntS b (keys.flatMap fun f => tails.map fun s => f ++ s)
      = cntS (b.take 1) keys * cntS (b.drop 1) tails
  | [], _ => by simp [cntS]
  | f :: keys, hk => by
    rw [List.flatMap_cons, cntS_append,
      cntS_map_prepend f (hk f (List.mem_cons_self _ _)) hb tails,
      cntS_flatMap_prepend hb tails keys (fun s hs => hk s (List.mem_cons_of_mem _ hs)),
      cntS_cons]
    by_cases hfb : f = b.take 1
    · rw [if_pos hfb, if_pos hfb, Nat.add_mul, Nat.one_mul]
      omega
    · rw [if_neg hfb, if_neg hfb, Nat.add_zero]
      omega

theorem gb2_elem {b : Str} (hb : b ∈ generateAllBaseCodes 2) :
    b.take 1 ∈ simpleKeys ∧ b.drop 1 ∈ simpleKeys ∧ b.length = 2 := by
  have hb2 : b ∈ simpleKeys.flatMap fun f => simpleKeys.map fun s => f ++ s := hb
  rw [List.mem_flatMap] at hb2
  obtain ⟨f, hf, hm⟩ := hb2
  rw [List.mem_map] at hm
  obtain ⟨s, hs, rfl⟩ := hm
  have hf1 := simpleKeys_len f hf
  have hs1 := simpleKeys_len s hs
  rw [List.take_left' hf1, List.drop_left' hf1, List.length_append]
  exact ⟨hf, hs, by omega⟩

theorem gb2_cntS_one {b : Str} (hb : b ∈ generateAllBaseCodes 2) :
    cntS b (generateAllBaseCodes 2) = 1 := by
  obtain ⟨h1, h2, h3⟩ := gb2_elem hb
  have he : cntS b (generateAllBaseCodes 2)
      = cntS (b.take 1) simpleKeys * cntS (b.drop 1) simpleKeys :=
    cntS_flatMap_prepend (by omega) simpleKeys simpleKeys simpleKeys_len
  rw [he, cntS_eq_one_of_nodup simpleKeys_nodup h1,
    cntS_eq_one_of_nodup simpleKeys_nodup h2]

theorem gb3_eq : generateAllBaseCodes 3 =
    simpleKeys.flatMap fun f => (generateAllBaseCodes 2).map fun t => f ++ t := by
  show (simpleKeys.flatMap fun f => simpleKeys.flatMap fun s =>
    simpleKeys.map fun t => f ++ s ++ t) = _
  congr 1
  funext f
  rw [show generateAllBaseCodes 2 = simpleKeys.flatMap fun a => simpleKeys.map fun s => a ++ s
    from rfl]
  rw [List.map_flatMap]
  congr 1
  funext s
  rw [List.map_map]
  apply List.map_congr_left
  intro t _
  simp [Function.comp, List.append_assoc]

theorem gb3_cntS_one {b : Str} (hb : b ∈ generateAllBaseCodes 3) :
    cntS b (generateAllBaseCodes 3) = 1 := by
  rw [gb3_eq] at hb ⊢
  have hb2 := hb
  rw [List.mem_flatMap] at hb2
  obtain ⟨f, hf, hm⟩ := hb2
  rw [List.mem_map] at hm
  obtain ⟨t, ht, rfl⟩ := hm
  have hf1 := simpleKeys_len f hf
  have ht2 := (gb2_elem ht).2.2
  rw [cntS_flatMap_prepend (by rw [List.length_append]; omega) _ _ simpleKeys_len,
    List.take_left' hf1, List.drop_left' hf1,
    cntS_eq_one_of_nodup simpleKeys_nodup hf, gb2_cntS_one ht, Nat.one_mul]

theorem gb_len : ∀ {L : Nat}, L = 1 ∨ L = 2 ∨ L = 3 →
    ∀ b ∈ generateAllBaseCodes L, b.length = L := by
  rintro L (rfl | rfl | rfl) b hb
  · exact simpleKeys_len b hb
  · exact (gb2_elem hb).2.2
  · rw [gb3_eq, List.mem_flatMap] at hb
    obtain ⟨f, hf, hm⟩ := hb
    rw [List.mem_map] at hm
    obtain ⟨t, ht, rfl⟩ := hm
    rw [List.length_append, simpleKeys_len f hf, (gb2_elem ht).2.2]

theorem gb_cntS_one : ∀ {L : Nat}, L = 1 ∨ L = 2 ∨ L = 3 →
    ∀ {b : Str}, b ∈ generateAllBaseCodes L → cntS b (generateAllBaseCodes L) = 1 := by
  rintro L (rfl | rfl | rfl) b hb
  · exact cntS_eq_one_of_nodup simpleKeys_nodup hb
  · exact gb2_cntS_one hb
  · exact gb3_cntS_one hb

theorem groupPlaceholderEntries_count_eq {q : Nat → Nat} {base : Str}
    (hQ : 0 < q base.length) (x : WordSimpleCode) (tw : List WordSimpleCode)
    (hx : x.code = base) :
    ((groupPlaceholderEntries q (x :: tw)).countP fun e => e.code == base)
      = q base.length - (x :: tw).length := by
  simp only [groupPlaceholderEntries]
  rw [hx]
  rw [if_neg (by omega)]
  by_cases hlt : (x :: tw).length < q base.length
  · rw [if_pos hlt, List.countP_map]
    have hev : ∀ ph ∈ generatePlaceholders ((x :: tw).length + 1)
        (q base.length - (x :: tw).length) (q base.length),
        (((fun e : WordSimpleCode => e.code == base) ∘
          fun ph => (⟨ph, base, getPlaceholderWeight ph⟩ : WordSimpleCode)) ph) = true := by
      intro ph _
      simp [Function.comp]
    rw [List.countP_eq_length.mpr hev]
    rw [show q base.length - (x :: tw).length
      = q base.length - ((x :: tw).length + 1) + 1 from by omega]
    exact generatePlaceholders_length (by omega) (by omega)
  · rw [if_neg hlt, List.countP_nil]
    omega

theorem groupPlaceholderEntries_count_zero {q : Nat → Nat} {base : Str}
    (g : List WordSimpleCode) (hg : ∀ y ∈ g, y.code ≠ base) :
    ((groupPlaceholderEntries q g).countP fun e => e.code == base) = 0 := by
  match g with
  | [] => rfl
  | g0 :: gs =>
    simp only [groupPlaceholderEntries]
    split
    · rfl
    · split
      · apply List.countP_eq_zero.mpr
        intro e he
        rw [List.mem_map] at he
        obtain ⟨ph, -, rfl⟩ := he
        simpa using hg g0 (List.mem_cons_self _ _)
      · rfl

theorem grouped_countP (q : Nat → Nat) (base : Str) (hQ : 0 < q base.length) :
    ∀ (N : Nat) (l : List WordSimpleCode), l.length ≤ N → l.Pairwise codeLe →
    (((groupRuns l).flatMap fun g => g ++ groupPlaceholderEntries q g).countP
        fun e => e.code == base) =
      (if l.countP (fun e => e.code == base) = 0 then 0
       else if l.countP (fun e => e.code == base) < q base.length then q base.length
       else l.countP (fun e => e.code == base)) := by
  intro N
  induction N with
  | zero =>
    intro l hl hpw
    rw [List.length_eq_zero.mp (Nat.le_zero.mp hl)]
    simp [groupRuns]
  | succ N ih =>
    intro l hl hpw
    match l with
    | [] => simp [groupRuns]
    | x :: xs =>
      simp only [groupRuns]
      rw [List.flatMap_cons, List.countP_append, List.countP_append]
      have hsplit : xs.takeWhile (fun y => y.code == x.code) ++
          xs.dropWhile (fun y => y.code == x.code) = xs :=
        List.takeWhile_append_dropWhile _ _
      have htw : ∀ y ∈ xs.takeWhile (fun y => y.code == x.code), y.code = x.code := by
        intro y hy
        simpa using List.mem_takeWhile_imp hy
      have hrest_sub : List.Sublist (xs.dropWhile (fun y => y.code == x.code)) (x :: xs) :=
        (List.dropWhile_suffix _).sublist.trans (List.sublist_cons_self x xs)
      have hrest_pw : (xs.dropWhile (fun y => y.code == x.code)).Pairwise codeLe :=
        hpw.sublist hrest_sub
      have hrest_le : (xs.dropWhile (fun y => y.code == x.code)).length ≤ N := by
        have h1 : (xs.dropWhile (fun y => y.code == x.code)).length ≤ xs.length :=
          (List.dropWhile_suffix _).sublist.length_le
        simp only [List.length_cons] at hl
        omega
      by_cases hxc : x.code = base
      · have hrest0 : ((xs.dropWhile (fun y => y.code == x.code)).countP
            fun e => e.code == base) = 0 := by
          apply List.countP_eq_zero.mpr
          intro z hz
          simp only [beq_iff_eq]
          intro hzc
          rcases hdw : xs.dropWhile (fun y => y.code == x.code) with _ | ⟨y0, t⟩
          · rw [hdw] at hz
            exact absurd hz (List.not_mem_nil z)
          · rw [hdw] at hz
            have hy0 : (y0.code == x.code) = false := dropWhile_head_false xs hdw
            simp only [beq_eq_false_iff_ne, ne_eq] at hy0
            have hmemy0 : y0 ∈ xs := by
              have hmm : y0 ∈ xs.dropWhile (fun y => y.code == x.code) := by
                rw [hdw]
                exact List.mem_cons_self _ _
              exact (List.dropWhile_suffix _).sublist.subset hmm
            have hxy0 : codeLe x y0 := (List.pairwise_cons.mp hpw).1 y0 hmemy0
            rcases List.mem_cons.mp hz with rfl | hz2
            · exact hy0 (hzc.trans hxc.symm)
            · have hy0z : codeLe y0 z := by
                have hpw2 := hrest_pw
                rw [hdw] at hpw2
                exact (List.pairwise_cons.mp hpw2).1 z hz2
              unfold codeLe at hxy0 hy0z
              have h1 : strLt x.code y0.code = false := by
                rw [hxc, ← hzc]
                exact hy0z
              exact hy0 (strLt_connex hxy0 h1)
        have hrun : ∀ y ∈ x :: xs.takeWhile (fun y => y.code == x.code), y.code = base := by
          intro y hy
          rcases List.mem_cons.mp hy with rfl | hy2
          · exact hxc
          · exact (htw y hy2).trans hxc
        have hruncnt : ((x :: xs.takeWhile fun y => y.code == x.code).countP
            fun e => e.code == base)
            = (x :: xs.takeWhile fun y => y.code == x.code).length := by
          apply List.countP_eq_length.mpr
          intro a ha
          simpa using hrun a ha
        have hlcnt : (x :: xs).countP (fun e => e.code == base)
            = (x :: xs.takeWhile fun y => y.code == x.code).length := by
          conv_lhs => rw [show (x :: xs) = (x :: xs.takeWhile (fun y => y.code == x.code))
            ++ xs.dropWhile (fun y => y.code == x.code) from by rw [List.cons_append, hsplit]]
          rw [List.countP_append, hrest0, hruncnt, Nat.add_zero]
        have hpad := groupPlaceholderEntries_count_eq hQ x
          (xs.takeWhile fun y => y.code == x.code) hxc
        have hihrest := ih _ hrest_le hrest_pw
        rw [hrest0] at hihrest
        simp only [eq_self_iff_true, if_true] at hihrest
        have hne0 : ¬((x :: xs.takeWhile fun y => y.code == x.code).length = 0) := by
          simp [List.length_cons]
        rw [hruncnt, hpad, hihrest, hlcnt]
        by_cases hnq : (x :: xs.takeWhile fun y => y.code == x.code).length < q base.length
        · rw [if_neg hne0, if_pos hnq]
          omega
        · rw [if_neg hne0, if_neg hnq]
          omega
      · have hallne : ∀ y ∈ x :: xs.takeWhile (fun y => y.code == x.code), y.code ≠ base := by
          intro y hy
          rcases List.mem_cons.mp hy with rfl | hy2
          · exact hxc
          · rw [htw y hy2]
            exact hxc
        have hrun0 : ((x :: xs.takeWhile fun y => y.code == x.code).countP
            fun e => e.code == base) = 0 := by
          apply List.countP_eq_zero.mpr
          intro a ha
          simpa using hallne a ha
        have hpad0 : ((groupPlaceholderEntries q
            (x :: xs.takeWhile fun y => y.code == x.code)).countP
            fun e => e.code == base) = 0 :=
          groupPlaceholderEntries_count_zero _ hallne
        have hlcnt : (x :: xs).countP (fun e => e.code == base)
            = (xs.dropWhile fun y => y.code == x.code).countP (fun e => e.code == base) := by
          conv_lhs => rw [show (x :: xs) = (x :: xs.takeWhile (fun y => y.code == x.code))
            ++ xs.dropWhile (fun y => y.code == x.code) from by rw [List.cons_append, hsplit]]
          rw [List.countP_append, hrun0, Nat.zero_add]
        rw [hrun0, hpad0, hlcnt, ih _ hrest_le hrest_pw]
        omega

theorem extra_level_countP (l : List WordSimpleCode) (q : Nat → Nat) (base : Str) (cl : Nat)
    (hcl : cl = 1 ∨ cl = 2 ∨ cl = 3) (hbase : base ∈ generateAllBaseCodes base.length) :
    ((if q cl = 0 then ([] : List WordSimpleCode)
      else (generateAllBaseCodes cl).flatMap fun baseCode =>
        if l.any (fun item => item.code == baseCode && !(isPlaceholder item.word)) then []
        else (generatePlaceholders 1 (q cl) (q cl)).map
          fun ph => ⟨ph, baseCode, getPlaceholderWeight ph⟩).countP
      fun e => e.code == base)
    = if cl = base.length ∧ q cl ≠ 0 ∧ l.any (fun item => item.code == base) = false
      then q cl else 0 := by
  by_cases hq0 : q cl = 0
  · rw [if_pos hq0, List.countP_nil, if_neg (fun h => h.2.1 hq0)]
  · rw [if_neg hq0, countP_flatMap]
    simp only [isPlaceholder_false, Bool.not_false, Bool.and_true]
    by_cases hlen : cl = base.length
    · subst hlen
      rw [sum_map_eq_single (gb_cntS_one hcl hbase) ?hz]
      case hz =>
        intro bc hbc hne
        split
        · rfl
        · apply List.countP_eq_zero.mpr
          intro e he
          rw [List.mem_map] at he
          obtain ⟨ph, -, rfl⟩ := he
          simpa using hne
      by_cases hany : l.any (fun item => item.code == base) = true
      · rw [if_pos hany, List.countP_nil,
          if_neg (fun h => by rw [hany] at h; exact absurd h.2.2 (by decide))]
      · have hanyf : l.any (fun item => item.code == base) = false := by
          cases hh : l.any (fun item => item.code == base)
          · rfl
          · exact absurd hh hany
        rw [if_neg (by rw [hanyf]; exact Bool.false_ne_true), List.countP_map,
          if_pos ⟨rfl, hq0, hanyf⟩]
        have hlenp : (generatePlaceholders 1 (q base.length) (q base.length)).length
            = q base.length := by
          have h := @generatePlaceholders_length 1 (q base.length) (by omega) (by omega)
          rw [show q base.length - 1 + 1 = q base.length from by omega] at h
          exact h
        rw [List.countP_eq_length.mpr (fun a _ => by simp [Function.comp]), hlenp]
    · rw [if_neg (fun h => hlen h.1)]
      apply List.sum_eq_zero
      intro v hv
      rw [List.mem_map] at hv
      obtain ⟨bc, hbc, rfl⟩ := hv
      split
      · rfl
      · apply List.countP_eq_zero.mpr
        intro e he
        rw [List.mem_map] at he
        obtain ⟨ph, -, rfl⟩ := he
        simp only [beq_iff_eq]
        intro hbe
        exact hlen (by rw [← gb_len hcl bc hbc, hbe])

theorem extra_total_countP (l : List WordSimpleCode) (q : Nat → Nat) (base : Str)
    (hbase : base ∈ generateAllBaseCodes base.length)
    (hL : base.length = 1 ∨ base.length = 2 ∨ base.length = 3) (hq : q base.length ≠ 0) :
    (([1, 2, 3].flatMap fun codeLength =>
      if q codeLength = 0 then ([] : List WordSimpleCode)
      else (generateAllBaseCodes codeLength).flatMap fun baseCode =>
        if l.any (fun item => item.code == baseCode && !(isPlaceholder item.word)) then []
        else (generatePlaceholders 1 (q codeLength) (q codeLength)).map
          fun ph => ⟨ph, baseCode, getPlaceholderWeight ph⟩).countP
      fun e => e.code == base)
    = if l.any (fun item => item.code == base) then 0 else q base.length := by
  simp only [List.flatMap_cons, List.flatMap_nil, List.append_nil]
  rw [List.countP_append, List.countP_append]
  rw [extra_level_countP l q base 1 (Or.inl rfl) hbase,
    extra_level_countP l q base 2 (Or.inr (Or.inl rfl)) hbase,
    extra_level_countP l q base 3 (Or.inr (Or.inr rfl)) hbase]
  by_cases hany : l.any (fun item => item.code == base) = true
  · rw [if_pos hany]
    have hno : ∀ cl : Nat, ¬ (cl = base.length ∧ q cl ≠ 0 ∧
        l.any (fun item => item.code == base) = false) := by
      intro cl hc
      rw [hany] at hc
      exact absurd hc.2.2 (by decide)
    rw [if_neg (hno 1), if_neg (hno 2), if_neg (hno 3)]
  · have hanyf : l.any (fun item => item.code == base) = false := by
      cases hh : l.any (fun item => item.code == base)
      · rfl
      · exact absurd hh hany
    have hrhsne : ¬((l.any fun item => item.code == base) = true) := by
      rw [hanyf]
      decide
    rw [if_neg hrhsne]
    rcases hL with hc | hc | hc
    · rw [hc] at hq ⊢
      have hp1 : 1 = 1 ∧ q 1 ≠ 0 ∧ (l.any fun item => item.code == base) = false :=
        ⟨rfl, hq, hanyf⟩
      have hp2 : ¬(2 = 1 ∧ q 2 ≠ 0 ∧ (l.any fun item => item.code == base) = false) :=
        fun h => absurd h.1 (by decide)
      have hp3 : ¬(3 = 1 ∧ q 3 ≠ 0 ∧ (l.any fun item => item.code == base) = false) :=
        fun h => absurd h.1 (by decide)
      rw [if_pos hp1, if_neg hp2, if_neg hp3]
      omega
    · rw [hc] at hq ⊢
      have hp1 : ¬(1 = 2 ∧ q 1 ≠ 0 ∧ (l.any fun item => item.code == base) = false) :=
        fun h => absurd h.1 (by decide)
      have hp2 : 2 = 2 ∧ q 2 ≠ 0 ∧ (l.any fun item => item.code == base) = false :=
        ⟨rfl, hq, hanyf⟩
      have hp3 : ¬(3 = 2 ∧ q 3 ≠ 0 ∧ (l.any fun item => item.code == base) = false) :=
        fun h => absurd h.1 (by decide)
      rw [if_neg hp1, if_pos hp2, if_neg hp3]
      omega
    · rw [hc] at hq ⊢
      have hp1 : ¬(1 = 3 ∧ q 1 ≠ 0 ∧ (l.any fun item => item.code == base) = false) :=
        fun h => absurd h.1 (by decide)
      have hp2 : ¬(2 = 3 ∧ q 2 ≠ 0 ∧ (l.any fun item => item.code == base) = false) :=
        fun h => absurd h.1 (by decide)
      have hp3 : 3 = 3 ∧ q 3 ≠ 0 ∧ (l.any fun item => item.code == base) = false :=
        ⟨rfl, hq, hanyf⟩
      rw [if_neg hp1, if_neg hp2, if_pos hp3]
      omega

/-- **C4.** After the word simplifier's placeholder back-fill (part_000's
`addPlaceholdersAfterSort` followed by `addAllPossiblePlaceholders`), every
base code over the fixed 24-key alphabet of length 1–3 whose length has a
positive quota Q is carried by exactly Q entries of the output: occupied
buckets are padded with placeholder tokens up to Q, and every possible base
code with no entry at all receives Q placeholders. -/
theorem words_backfill_exact_quota (wordCodes : List WordCode) (q : Nat → Nat)
    (L : Nat) (base : Str) (hbase : base ∈ generateAllBaseCodes L) (hq : 0 < q L) :
    (BuildWordsSimpleCodeFull wordCodes q).countP (fun e => e.code == base) = q L := by
  have hL : L = 1 ∨ L = 2 ∨ L = 3 := by
    rcases L with _ | _ | _ | _ | L
    · exact absurd hbase (by simp [generateAllBaseCodes])
    · exact Or.inl rfl
    · exact Or.inr (Or.inl rfl)
    · exact Or.inr (Or.inr rfl)
    · exact absurd hbase (by simp [generateAllBaseCodes])
  have hblen : base.length = L := gb_len hL base hbase
  subst hblen
  have hpw : (SortWordSimpleCodes (BuildWordsSimpleCode wordCodes q)).Pairwise codeLe := by
    have hs : List.Sorted wscR (List.insertionSort wscR (BuildWordsSimpleCode wordCodes q)) :=
      List.sorted_insertionSort wscR _
    exact hs.imp (fun h => wscR_codeLe h)
  have hsc : (SortWordSimpleCodes (BuildWordsSimpleCode wordCodes q)).countP
      (fun e => e.code == base)
      = (BuildWordsSimpleCode wordCodes q).countP (fun e => e.code == base) :=
    (List.perm_insertionSort wscR _).countP_eq _
  have hle := wordsCore_count_le wordCodes q base
  unfold BuildWordsSimpleCodeFull addPlaceholdersAfterSort addAllPossiblePlaceholders
  rw [List.countP_append]
  generalize hG : ((groupRuns (SortWordSimpleCodes (BuildWordsSimpleCode wordCodes q))).flatMap
    fun g => g ++ groupPlaceholderEntries q g) = G
  rw [extra_total_countP G q base hbase hL (by omega)]
  have hgrc := grouped_countP q base hq
    (SortWordSimpleCodes (BuildWordsSimpleCode wordCodes q)).length
    (SortWordSimpleCodes (BuildWordsSimpleCode wordCodes q)) (le_refl _) hpw
  rw [hG] at hgrc
  by_cases hn0 : (SortWordSimpleCodes (BuildWordsSimpleCode wordCodes q)).countP
      (fun e => e.code == base) = 0
  · rw [hn0] at hgrc
    simp only [eq_self_iff_true, if_true] at hgrc
    have hanyf : (G.any fun item => item.code == base) = false := by
      cases hh : G.any fun item => item.code == base
      · rfl
      · exfalso
        obtain ⟨a, ha, hpa⟩ := List.any_eq_true.mp hh
        have hpos : 0 < G.countP fun e => e.code == base :=
          List.countP_pos.mpr ⟨a, ha, hpa⟩
        omega
    have hcne : ¬((G.any fun item => item.code == base) = true) := by
      rw [hanyf]
      decide
    rw [hgrc, if_neg hcne]
    omega
  · have hgQ : (G.countP fun e => e.code == base) = q base.length := by
      rw [hgrc, if_neg hn0]
      by_cases h : (SortWordSimpleCodes (BuildWordsSimpleCode wordCodes q)).countP
          (fun e => e.code == base) < q base.length
      · rw [if_pos h]
      · rw [if_neg h]
        omega
    have hanyt : (G.any fun item => item.code == base) = true := by
      apply List.any_eq_true.mpr
      have hpos : 0 < G.countP fun e => e.code == base := by omega
      obtain ⟨a, ha, hpa⟩ := List.countP_pos.mp hpos
      exact ⟨a, ha, hpa⟩
    rw [hgQ, if_pos hanyt]
    omega

/-- Witness for C4: one two-character word coded `qtyp` with weight 5 and
quota 2 for every length; the single-key base code `q` ends up carried by
exactly two entries (the accepted abbreviation plus one placeholder). -/
theorem words_backfill_exact_quota_witness :
    (BuildWordsSimpleCodeFull [⟨['你', '好'], ['q', 't', 'y', 'p'], ['5']⟩]
      (fun _ => 2)).countP (fun e => e.code == ['q']) = 2 :=
  words_backfill_exact_quota [⟨['你', '好'], ['q', 't', 'y', 'p'], ['5']⟩]
    (fun _ => 2) 1 ['q'] (by decide) (by decide)

end LL
